import Mathlib

/-!
# rulebook-monk: verification of the text-to-HTML pipeline

Shallow embedding of the Go sources of `ebenaum/rulebook-monk`:
* `lex.go` — a character-level lexer written as a state machine whose state
  functions emit typed items; modelled as a small-step function `step` over a
  lexer configuration plus an explicit state tag, driven by fuel (`lexRun`).
  Go runes are modelled as `Char` with width 1; positions are char indices.
* `roman.go` — greedy integer-to-Roman-numeral conversion.
* `builder.go` — the document assembler (`Build`'s token loop, with its
  pointer-swapping bookkeeping made explicit as target tags) and the HTML
  emitter (`Builder`), whose output is modelled as a list of tagged chunks
  whose concatenation is the emitted string.
-/

set_option maxRecDepth 4096

namespace Rulebook

/-- Go `itemType` constants (lex.go). -/
inductive ItemType
  | itemError
  | itemText
  | itemBold
  | itemEm
  | itemNewLine
  | itemChapter
  | itemSection
  | itemAnnex
  | itemStartListElement
  | itemEndListElement
  | itemListOpen
  | itemLink
  | itemCommand
  | itemListClose
  | itemTableStart
  | itemTableEnd
  | itemTableRow
  | itemEOF
deriving DecidableEq, Repr

/-- Go `item`: type, payload and 1-based source line. -/
structure Item where
  typ : ItemType
  val : String
  line : Nat
deriving DecidableEq, Repr

/-- The mutable scanning fields of Go's `lexer` struct (`input`, `start`,
`pos`, `width`, `line`); the `items` channel becomes the emission lists
returned by `step`. -/
structure LexSt where
  input : List Char
  start : Nat
  pos : Nat
  width : Nat
  line : Nat
deriving DecidableEq, Repr

/-- Go `eof = 0`, compared against the rune returned by `next`. -/
def eofCh : Char := Char.ofNat 0

/-- `unicode.IsSpace` (the code points Go's `strings.TrimSpace` strips). -/
def isSpaceGo (c : Char) : Bool :=
  c = ' ' || c = '\t' || c = '\n' || c = '\x0b' || c = '\x0c' || c = '\r' ||
  c = '\x85' || c = '\xa0'

/-- `strings.TrimSpace`. -/
def goTrim (s : String) : String :=
  String.mk (((s.data.dropWhile isSpaceGo).reverse.dropWhile isSpaceGo).reverse)

def goSplitCharAux (sep : Char) : List Char → List Char → List String
  | acc, [] => [String.mk acc.reverse]
  | acc, c :: r =>
    if c = sep then String.mk acc.reverse :: goSplitCharAux sep [] r
    else goSplitCharAux sep (c :: acc) r

/-- `strings.Split` with a single-character separator (`Split("", sep) = [""]`). -/
def goSplitChar (sep : Char) (s : String) : List String := goSplitCharAux sep [] s.data

/-- `strings.Join`. -/
def goJoin (sep : String) : List String → String
  | [] => ""
  | [x] => x
  | x :: y :: r => x ++ sep ++ goJoin sep (y :: r)

/-- `strings.HasPrefix` on char lists (pattern first). -/
def leadsWith : List Char → List Char → Bool
  | [], _ => true
  | _ :: _, [] => false
  | p :: ps, c :: cs => p = c && leadsWith ps cs

/-- `strings.HasPrefix(l.input[l.pos:], pat)`. -/
def atPos (l : LexSt) (pat : List Char) : Bool := leadsWith pat (l.input.drop l.pos)

/-- Go `l.next()`: returns `eof` (rune 0) with width 0 past the end, otherwise
the char at `pos`, advancing `pos` and bumping `line` on a newline. -/
def lnext (l : LexSt) : Char × LexSt :=
  if l.input.length ≤ l.pos then (eofCh, { l with width := 0 })
  else
    let c := l.input.getD l.pos eofCh
    (c, { l with pos := l.pos + 1, width := 1,
                 line := if c = '\n' then l.line + 1 else l.line })

/-- Go `l.backup()`: steps back by the last width and un-counts a newline. -/
def lbackup (l : LexSt) : LexSt :=
  let p := l.pos - l.width
  { l with pos := p,
           line := if p < l.input.length ∧ l.input.getD p eofCh = '\n'
                   then l.line - 1 else l.line }

/-- `l.input[a:b]` as a string. -/
def lslice (l : LexSt) (a b : Nat) : String := String.mk ((l.input.drop a).take (b - a))

/-- Go `l.ignore()`. -/
def ignoreL (l : LexSt) : LexSt := { l with start := l.pos }

/-- Go `l.emit(t)`: item value is the raw `input[start:pos]` slice. -/
def emitI (l : LexSt) (t : ItemType) : Item × LexSt :=
  (⟨t, lslice l l.start l.pos, l.line⟩, { l with start := l.pos })

/-- Go `l.emitTrim(t)`: like `emit` with `strings.TrimSpace` on the value. -/
def emitTrimI (l : LexSt) (t : ItemType) : Item × LexSt :=
  (⟨t, goTrim (lslice l l.start l.pos), l.line⟩, { l with start := l.pos })

/-- Go `l.emitCustom(t, data)`: emits `data` without touching `start`. -/
def emitCustomI (l : LexSt) (t : ItemType) (data : String) : Item :=
  ⟨t, data, l.line⟩

/-- Go const `section = "##"`. -/
def sectionMark : List Char := "##".data
/-- Go const `chapter = "#"`. -/
def chapterMark : List Char := "#".data
/-- Go const `table = "-table-"`. -/
def tableMark : List Char := "-table-".data
/-- Go const `annex = "ANNEX"`. -/
def annexMark : List Char := "ANNEX".data
/-- Go const `listElement = "\n- "`. -/
def listElementMark : List Char := "\n- ".data
/-- Go const `newLine = "\n"`. -/
def newLineMark : List Char := "\n".data
/-- Go const `emSymbol = "__"`. -/
def emSymbolMark : List Char := "__".data

/-- The parent state a sub-lexer (`lexBold`, `lexEm`, …) returns to: in the
source these closures are only ever built over `lexText` or `lexListItem`. -/
inductive Cont
  | text
  | listItem
deriving DecidableEq, Repr

/-- The state functions of lex.go as a finite tag.  `*Enter` tags perform the
one-off actions a Go state function runs before its `for` loop (an `ignore`,
or skipping the table marker); the loop body itself is the un-suffixed tag. -/
inductive LState
  | textSt
  | chapterSt
  | sectionSt
  | annexSt
  | listItemSt
  | boldEnter (fn : Cont)
  | boldSt (fn : Cont)
  | emEnter (fn : Cont)
  | emSt (fn : Cont)
  | tableTitleEnter (fn : Cont)
  | tableTitleSt (fn : Cont)
  | tableSt (fn : Cont)
  | cmdNameEnter (fn : Cont)
  | cmdNameSt (fn : Cont)
  | cmdArgsSt (cmd : String) (fn : Cont)
  | linkHeadEnter (fn : Cont)
  | linkHeadSt (fn : Cont)
  | linkTailSt (txt : String) (fn : Cont)
  | doneSt
deriving DecidableEq, Repr

def contSt : Cont → LState
  | .text => .textSt
  | .listItem => .listItemSt

/-- lexText / lexListItem pending-text flush:
`if l.pos > l.start { l.emit(itemText) }`. -/
def flushText (l : LexSt) : List Item × LexSt :=
  if l.start < l.pos then
    let (it, l) := emitI l .itemText
    ([it], l)
  else ([], l)

/-- The flush used after consuming a single-char trigger (`\`, `*`, `[`):
`if l.pos > l.start { l.backup(); l.emit(itemText); l.next() }`. -/
def flushAfter (l : LexSt) : List Item × LexSt :=
  if l.start < l.pos then
    let l := lbackup l
    let (it, l) := emitI l .itemText
    let (_, l) := lnext l
    ([it], l)
  else ([], l)

/-- One iteration of the active state function's scanning loop (lex.go).
Returns the items emitted during that iteration, the next state tag, and the
updated lexer fields. -/
def step : LState → LexSt → List Item × LState × LexSt
  | .textSt, l =>
    if atPos l sectionMark then
      let (is, l) := flushText l
      let (_, l) := lnext l
      let (_, l) := lnext l
      (is, .sectionSt, ignoreL l)
    else if atPos l tableMark then
      let (is, l) := flushText l
      (is, .tableTitleEnter .text, l)
    else if atPos l annexMark then
      let (is, l) := flushText l
      let l := { l with pos := l.pos + 5 }
      (is, .annexSt, ignoreL l)
    else if atPos l chapterMark then
      let (is, l) := flushText l
      let (_, l) := lnext l
      (is, .chapterSt, ignoreL l)
    else if atPos l listElementMark then
      let (is, l) := flushText l
      let (_, l) := lnext l
      let (_, l) := lnext l
      let (_, l) := lnext l
      let l := ignoreL l
      let (it1, l) := emitTrimI l .itemListOpen
      let (it2, l) := emitI l .itemStartListElement
      (is ++ [it1, it2], .listItemSt, l)
    else if atPos l newLineMark then
      let (is, l) := flushText l
      let (it, l) := emitTrimI l .itemNewLine
      let (_, l) := lnext l
      (is ++ [it], .textSt, ignoreL l)
    else if atPos l emSymbolMark then
      let (is, l) := flushText l
      let (_, l) := lnext l
      let (_, l) := lnext l
      (is, .emEnter .text, l)
    else
      let (c, l) := lnext l
      if c = '\\' then
        let (is, l) := flushAfter l
        (is, .cmdNameEnter .text, l)
      else if c = '*' then
        let (is, l) := flushAfter l
        (is, .boldEnter .text, l)
      else if c = '[' then
        let (is, l) := flushAfter l
        (is, .linkHeadEnter .text, l)
      else if c = eofCh then
        let (is, l) :=
          if l.start < l.pos then
            let (it, l) := emitTrimI l .itemText
            ([it], l)
          else ([], l)
        let (ite, l) := emitI l .itemEOF
        (is ++ [ite], .doneSt, l)
      else ([], .textSt, l)
  | .chapterSt, l =>
    if atPos l newLineMark then
      let (it, l) := emitTrimI l .itemChapter
      ([it], .textSt, l)
    else
      let (c, l) := lnext l
      if c = eofCh then ([], .textSt, lbackup l)
      else ([], .chapterSt, l)
  | .sectionSt, l =>
    if atPos l newLineMark then
      let (it, l) := emitTrimI l .itemSection
      ([it], .textSt, l)
    else
      let (c, l) := lnext l
      if c = eofCh then ([], .textSt, lbackup l)
      else ([], .sectionSt, l)
  | .annexSt, l =>
    if atPos l newLineMark then
      let (it, l) := emitTrimI l .itemAnnex
      ([it], .textSt, l)
    else
      let (c, l) := lnext l
      if c = eofCh then ([], .textSt, lbackup l)
      else ([], .annexSt, l)
  | .listItemSt, l =>
    if atPos l listElementMark then
      let (is, l) := flushText l
      let (_, l) := lnext l
      let (_, l) := lnext l
      let (_, l) := lnext l
      let l := ignoreL l
      let (it1, l) := emitI l .itemEndListElement
      let (it2, l) := emitI l .itemStartListElement
      (is ++ [it1, it2], .listItemSt, l)
    else if atPos l newLineMark then
      let (is, l) := flushText l
      let (it1, l) := emitTrimI l .itemEndListElement
      let (it2, l) := emitTrimI l .itemListClose
      (is ++ [it1, it2], .textSt, l)
    else if atPos l emSymbolMark then
      let (is, l) := flushText l
      let (_, l) := lnext l
      let (_, l) := lnext l
      (is, .emEnter .listItem, l)
    else
      let (c, l) := lnext l
      if c = '*' then
        let (is, l) := flushAfter l
        (is, .boldEnter .listItem, l)
      else if c = eofCh then ([], .textSt, lbackup l)
      else ([], .listItemSt, l)
  | .boldEnter fn, l => ([], .boldSt fn, ignoreL l)
  | .boldSt fn, l =>
    let (c, l) := lnext l
    if c = '*' then
      let l := lbackup l
      let (it, l) := emitI l .itemBold
      let (_, l) := lnext l
      ([it], contSt fn, ignoreL l)
    else ([], .boldSt fn, l)
  | .emEnter fn, l => ([], .emSt fn, ignoreL l)
  | .emSt fn, l =>
    if atPos l emSymbolMark then
      let (it, l) := emitI l .itemEm
      let (_, l) := lnext l
      let (_, l) := lnext l
      ([it], contSt fn, ignoreL l)
    else
      let (_, l) := lnext l
      ([], .emSt fn, l)
  | .tableTitleEnter fn, l =>
    let l := { l with pos := l.pos + 7 }
    ([], .tableTitleSt fn, ignoreL l)
  | .tableTitleSt fn, l =>
    let (c, l) := lnext l
    if c = '\n' then
      let (it, l) := emitTrimI l .itemTableStart
      ([it], .tableSt fn, l)
    else ([], .tableTitleSt fn, l)
  | .tableSt fn, l =>
    if atPos l tableMark then
      let (it, l) := emitI l .itemTableEnd
      let l := { l with pos := l.pos + 7 }
      ([it], contSt fn, ignoreL l)
    else
      let (c, l) := lnext l
      if c = '\n' then
        let (it, l) := emitTrimI l .itemTableRow
        ([it], .tableSt fn, l)
      else ([], .tableSt fn, l)
  | .cmdNameEnter fn, l => ([], .cmdNameSt fn, ignoreL l)
  | .cmdNameSt fn, l =>
    let (c, l) := lnext l
    if c = '(' then
      let cmd := lslice l l.start (l.pos - 1)
      ([], .cmdArgsSt cmd fn, ignoreL l)
    else ([], .cmdNameSt fn, l)
  | .cmdArgsSt cmd fn, l =>
    let (c, l) := lnext l
    if c = ')' then
      let l := lbackup l
      let it := emitCustomI l .itemCommand (cmd ++ "|" ++ lslice l l.start l.pos)
      let (_, l) := lnext l
      ([it], contSt fn, ignoreL l)
    else ([], .cmdArgsSt cmd fn, l)
  | .linkHeadEnter fn, l => ([], .linkHeadSt fn, ignoreL l)
  | .linkHeadSt fn, l =>
    let (c, l) := lnext l
    if c = ']' then
      let txt := lslice l l.start (l.pos - 1)
      let (_, l) := lnext l
      ([], .linkTailSt txt fn, ignoreL l)
    else ([], .linkHeadSt fn, l)
  | .linkTailSt txt fn, l =>
    let (c, l) := lnext l
    if c = ')' then
      let l := lbackup l
      let it := emitCustomI l .itemLink (txt ++ "|" ++ lslice l l.start l.pos)
      let (_, l) := lnext l
      ([it], contSt fn, ignoreL l)
    else ([], .linkTailSt txt fn, l)
  | .doneSt, l => ([], .doneSt, l)

/-- Run the state machine for `fuel` loop iterations, collecting emissions.
Each call of Go's `nextItem` runs `step` until an item is available; the whole
token stream of a terminating run is the emission list once `doneSt` is
reached (further fuel adds nothing). -/
def lexRun : Nat → LState → LexSt → List Item
  | 0, _, _ => []
  | n + 1, st, l =>
    let r := step st l
    r.1 ++ lexRun n r.2.1 r.2.2

/-- Go `lex(input)`: scanning starts in `lexText` at line 1. -/
def lexInit (s : List Char) : LexSt := ⟨s, 0, 0, 0, 1⟩

def lexItems (fuel : Nat) (s : List Char) : List Item :=
  lexRun fuel .textSt (lexInit s)

/-- roman.go `maxTable`. -/
def maxTable : List Int := [1000, 900, 500, 400, 100, 90, 50, 40, 10, 9, 5, 4, 1]

/-- roman.go `numInv` lookup (absent keys give the map zero value `""`). -/
def numInv (v : Int) : String :=
  if v = 1000 then "M"
  else if v = 900 then "CM"
  else if v = 500 then "D"
  else if v = 400 then "CD"
  else if v = 100 then "C"
  else if v = 90 then "XC"
  else if v = 50 then "L"
  else if v = 40 then "XL"
  else if v = 10 then "X"
  else if v = 9 then "IX"
  else if v = 5 then "V"
  else if v = 4 then "IV"
  else if v = 1 then "I"
  else ""

/-- roman.go `highestDecimal`'s scan of `maxTable` (fallback 1). -/
def highestDecimalGo : List Int → Int → Int
  | [], _ => 1
  | v :: r, n => if v ≤ n then v else highestDecimalGo r n

def highestDecimal (n : Int) : Int := highestDecimalGo maxTable n

/-- roman.go `toRoman`'s loop, fuelled: each pass subtracts
`highestDecimal n ≥ 1` from `n`, so `n.toNat` passes always suffice
(`toRomanAux_fuel` below proves the fuel is irrelevant beyond that). -/
def toRomanAux : Nat → Int → String
  | 0, _ => ""
  | f + 1, n =>
    if 0 < n then numInv (highestDecimal n) ++ toRomanAux f (n - highestDecimal n)
    else ""

def toRoman (n : Int) : String := toRomanAux n.toNat n

/-- builder.go `toAnnex`: `string(n + 65)`. -/
def toAnnex (n : Nat) : String := String.singleton (Char.ofNat (n + 65))

/-- builder.go `Section`. -/
structure Section where
  Title : String := ""
  Items : List Item := []
deriving DecidableEq, Repr

/-- builder.go `Chapter`. -/
structure Chapter where
  Title : String := ""
  Items : List Item := []
  Sections : List Section := []
deriving DecidableEq, Repr

/-- builder.go `Document`. -/
structure Document where
  Items : List Item := []
  Sections : List Section := []
  Chapters : List Chapter := []
  Annexes : List Section := []
deriving DecidableEq, Repr

/-- Where `Build`'s `sections *[]Section` pointer aims: `document.Sections`, or
the `Sections` of the most recently appended chapter.  The pointer is only
ever (re)assigned to one of these two places. -/
inductive SecTgt
  | doc
  | chap
deriving DecidableEq, Repr

/-- Where `Build`'s `items *[]item` pointer aims: `document.Items`, the last
chapter's `Items`, the last annex's `Items`, or the `Items` of the last
section of the container `SecTgt` points at.  Every assignment in the source
targets the then-last element, and each later growth of that container
reassigns the pointer, so "last" stays accurate. -/
inductive ItTgt
  | doc
  | chap
  | annex
  | sec (st : SecTgt)
deriving DecidableEq, Repr

structure AsmSt where
  doc : Document
  secTgt : SecTgt
  itTgt : ItTgt
deriving DecidableEq, Repr

/-- Mutate the last element of a list (the effect of writing through a Go
pointer into the slice's last slot). -/
def updLast (f : α → α) : List α → List α
  | [] => []
  | [a] => [f a]
  | a :: b :: r => a :: updLast f (b :: r)

/-- `*items = append(*items, it)` at the current items target. -/
def pushItem (it : Item) (d : Document) : ItTgt → Document
  | .doc => { d with Items := d.Items ++ [it] }
  | .chap => { d with Chapters := updLast (fun c => { c with Items := c.Items ++ [it] }) d.Chapters }
  | .annex => { d with Annexes := updLast (fun a => { a with Items := a.Items ++ [it] }) d.Annexes }
  | .sec .doc => { d with Sections := updLast (fun s => { s with Items := s.Items ++ [it] }) d.Sections }
  | .sec .chap =>
    let f := fun (s : Section) => { s with Items := s.Items ++ [it] }
    { d with Chapters := updLast (fun c => { c with Sections := updLast f c.Sections }) d.Chapters }

/-- `*sections = append(*sections, Section{...})` at the current sections
target. -/
def pushSection (title : String) (d : Document) : SecTgt → Document
  | .doc => { d with Sections := d.Sections ++ [{ Title := title }] }
  | .chap => { d with Chapters := updLast (fun c => { c with Sections := c.Sections ++ [{ Title := title }] }) d.Chapters }

/-- One iteration of `Build`'s token switch (builder.go).  Note that the
`itemAnnex` case clears the chapter and retargets `items`, but — exactly as in
the source — leaves the `sections` pointer where it was. -/
def asmStep (st : AsmSt) (it : Item) : AsmSt :=
  match it.typ with
  | .itemChapter =>
    { doc := { st.doc with Chapters := st.doc.Chapters ++ [{ Title := it.val }] },
      secTgt := .chap, itTgt := .chap }
  | .itemAnnex =>
    { doc := { st.doc with Annexes := st.doc.Annexes ++ [{ Title := it.val }] },
      secTgt := st.secTgt, itTgt := .annex }
  | .itemSection =>
    { doc := pushSection it.val st.doc st.secTgt,
      secTgt := st.secTgt, itTgt := .sec st.secTgt }
  | _ => { st with doc := pushItem it st.doc st.itTgt }

def asmInit : AsmSt := ⟨{}, .doc, .doc⟩

/-- `Build`'s token loop: stops at the first `itemEOF` or `itemError`; in the
latter case the offending item is surfaced (the `lexer error` return). -/
def asmRun : List Item → AsmSt → AsmSt × Option Item
  | [], st => (st, none)
  | it :: rest, st =>
    if it.typ = .itemEOF then (st, none)
    else if it.typ = .itemError then (st, some it)
    else asmRun rest (asmStep st it)

def assembleDoc (items : List Item) : Document := (asmRun items asmInit).1.doc

/-- builder.go `BuilderConfig`. -/
structure BuilderConfig where
  TableOfContents : Bool
deriving DecidableEq, Repr

/-- One `b.append(...)` emission, tagged by what it opens or closes so that
paragraph/list invariants can be stated; `Chunk.str` is the exact text
written to the `strings.Builder`. -/
inductive Chunk
  | pOpen (s : String)
  | pClose (s : String)
  | olOpen (s : String)
  | olClose (s : String)
  | tableOpen (s : String)
  | heading (s : String)
  | raw (s : String)
deriving DecidableEq, Repr

def Chunk.str : Chunk → String
  | .pOpen s => s
  | .pClose s => s
  | .olOpen s => s
  | .olClose s => s
  | .tableOpen s => s
  | .heading s => s
  | .raw s => s

/-- builder.go `Builder`: `content` becomes the chunk list. -/
structure BState where
  err : Option String
  chunks : List Chunk
  paragraphIsOpen : Bool
  newSection : Bool
  tableRowIndex : Int
  tableTitle : String
  Config : BuilderConfig
deriving DecidableEq, Repr

/-- `strings.Builder.WriteString` always returns a nil error (Go stdlib). -/
def writeStringErr (_s : String) : Option String := none

/-- `b.append(...)`: skipped entirely once `b.err` is set; otherwise writes
and records the write's (always-nil) error. -/
def appendC (b : BState) (c : Chunk) : BState :=
  if b.err.isSome then b
  else { b with chunks := b.chunks ++ [c], err := writeStringErr (Chunk.str c) }

def closeParagraph (b : BState) : BState :=
  if b.paragraphIsOpen then appendC { b with paragraphIsOpen := false } (.pClose "\n</p>\n")
  else b

def openParagraph (b : BState) : BState :=
  if !b.paragraphIsOpen && b.newSection then
    appendC { b with paragraphIsOpen := true, newSection := false } (.pOpen "<p class='indent'>\n")
  else if !b.paragraphIsOpen then
    appendC { b with paragraphIsOpen := true } (.pOpen "<p>\n")
  else b

/-- builder.go `anchorName`: `strings.ToLower` then `strings.Replace` of every
`" "` by `"-"`, done per char (the pattern is a single char; `Char.toLower`
lowers ASCII and the repository's headings are ASCII). -/
def anchorName (s : String) : String :=
  String.mk ((s.data.map Char.toLower).map (fun c => if c = ' ' then '-' else c))

def annexAnchorName (s : String) : String := "annex-" ++ anchorName s

/-- `fmt.Sprintf` applied to a format string with NO arguments, which is what
`b.append(it.val)` does to plain text: doubled percents collapse to one; a
percent followed by a verb reports the missing argument; a trailing lone
percent reports no verb.  Width/precision directives are not modelled — the
only `%`s ever reaching this point are the ones `Build` doubled. -/
def goFmt : List Char → List Char
  | [] => []
  | ['%'] => "%!(NOVERB)".data
  | '%' :: c :: r =>
    if c = '%' then '%' :: goFmt r
    else '%' :: '!' :: c :: ("(MISSING)".data ++ goFmt r)
  | c :: r => c :: goFmt r

def goFmtStr (s : String) : String := String.mk (goFmt s.data)

/-- builder.go `handleCommand`.  (Go indexes `args[0]`/`args[1]` and `size[0]`
unchecked and would panic on too-few arguments or an empty size; those calls
are modelled with empty-string defaults, which no verified claim exercises.) -/
def handleCommand (b : BState) (name : String) (args : List String) : BState :=
  if name = "color" then
    appendC b (.raw ("<span style='color: #" ++ goTrim (args.getD 1 "") ++ "'>" ++ goTrim (args.getD 0 "") ++ "</span>"))
  else if name = "img" then
    let b := closeParagraph b
    let classNames := ["illustration"] ++
      (if 2 < args.length then
        (if goTrim (args.getD 2 "") = "left" then ["float-left"]
         else if goTrim (args.getD 2 "") = "right" then ["float-right"]
         else [])
       else [])
    let size := if 3 < args.length then goTrim (args.getD 3 "") else ""
    let width := match size.data with
      | 'w' :: r => String.mk r
      | _ => ""
    let height := match size.data with
      | 'h' :: r => if r = [] then "" else String.mk r
      | _ => ""
    let cls := goJoin " " classNames
    if width ≠ "" then
      appendC b (.raw ("<img class='" ++ cls ++ "' src='" ++ args.getD 0 "" ++ "' alt='" ++ goTrim (args.getD 1 "") ++ "' width='" ++ width ++ "'/>"))
    else if height ≠ "" then
      appendC b (.raw ("<img class='" ++ cls ++ "' src='" ++ args.getD 0 "" ++ "' alt='" ++ goTrim (args.getD 1 "") ++ "' height='" ++ height ++ "'/>"))
    else
      appendC b (.raw ("<img class='" ++ cls ++ "' src='" ++ args.getD 0 "" ++ "' alt='" ++ goTrim (args.getD 1 "") ++ "' />"))
  else b

/-- builder.go `handleItem` (the `if/else if` chain on `it.typ`). -/
def handleItem (b : BState) (it : Item) : BState :=
  match it.typ with
  | .itemNewLine => closeParagraph b
  | .itemListOpen => appendC (closeParagraph b) (.olOpen "<ol class='roman'>\n")
  | .itemListClose => appendC b (.olClose "</ol>\n\n")
  | .itemStartListElement => openParagraph (appendC b (.raw "\n<li>\n"))
  | .itemEndListElement => appendC (closeParagraph b) (.raw "\n</li>\n")
  | .itemBold =>
    let b := openParagraph b
    appendC b (.raw ("<strong>" ++ it.val ++ "</strong>"))
  | .itemCommand =>
    let info := goSplitChar '|' it.val
    handleCommand b (info.getD 0 "") (goSplitChar ',' (info.getD 1 ""))
  | .itemLink =>
    let b := openParagraph b
    let info := goSplitChar '|' it.val
    appendC b (.raw ("<a href='#" ++ anchorName (info.getD 1 "") ++ "'>" ++ info.getD 0 "" ++ "</a>"))
  | .itemEm =>
    let b := openParagraph b
    appendC b (.raw ("<em>" ++ it.val ++ "</em>"))
  | .itemTableStart =>
    let b := closeParagraph b
    let b := { b with tableRowIndex := -1, tableTitle := it.val }
    appendC b (.tableOpen "<table>\n")
  | .itemTableRow =>
    let cells := goSplitChar '|' it.val
    let b :=
      if b.tableRowIndex = -1 then
        let b := appendC b (.raw "<thead>\n")
        let b := appendC b (.raw "<tr>\n")
        let b := appendC b (.raw ("<th colspan='" ++ toString cells.length ++ "'>" ++ b.tableTitle ++ "</th>\n"))
        let b := appendC b (.raw "</tr>\n")
        let b := appendC b (.raw "</thead>\n")
        appendC b (.raw "<tbody>\n")
      else b
    let b := { b with tableRowIndex := b.tableRowIndex + 1 }
    let b := appendC b (.raw "<tr>\n")
    let b := appendC b (.raw ("<td class='head'>" ++ cells.headD "" ++ "</td>\n"))
    let b := cells.tail.foldl (fun b cell =>
      if b.tableRowIndex = 0 then appendC b (.raw ("<td class='head'>" ++ cell ++ "</td>\n"))
      else appendC b (.raw ("<td class='lead'>" ++ cell ++ "</td>\n"))) b
    appendC b (.raw "</tr>\n")
  | .itemTableEnd =>
    let b := appendC b (.raw "</tbody>\n")
    appendC b (.raw "</table>\n")
  | _ =>
    if it.val ≠ "" then
      let b := openParagraph b
      appendC b (.raw (goFmtStr it.val))
    else b

/-- builder.go `Builder.handleSection`. -/
def handleSection (b : BState) (s : Section) : BState :=
  let b := { b with newSection := true }
  let b := appendC b (.heading ("<h3><a name='" ++ anchorName s.Title ++ "'></a>" ++ s.Title ++ "</h3>\n"))
  s.Items.foldl handleItem b

/-- builder.go `Builder.buildTableOfContents`. -/
def buildTableOfContents (b : BState) (document : Document) : BState :=
  let b := appendC b (.raw "<div id='summary'>\n<h3>Table des matières</h3>\n")
  let b := appendC b (.olOpen "<ol>\n")
  let b := document.Sections.foldl (fun b s =>
    appendC b (.raw ("<li><a href='#" ++ anchorName s.Title ++ "'>" ++ s.Title ++ "</a></li>\n"))) b
  let b := appendC b (.olClose "</ol>\n")
  let b := appendC b (.olOpen "<ol>\n")
  let b := document.Chapters.enum.foldl (fun b p =>
    let b := appendC b (.raw ("<li><strong>" ++ toRoman (p.1 : Int) ++ "</strong> - <a href='#" ++ anchorName p.2.Title ++ "'>" ++ p.2.Title ++ "</a></li>\n"))
    let b := appendC b (.olOpen "<ol class='roman'>\n")
    let b := p.2.Sections.foldl (fun b s =>
      appendC b (.raw ("<li><a href='#" ++ anchorName s.Title ++ "'>" ++ s.Title ++ "</a></li>\n"))) b
    appendC b (.olClose "</ol>\n")) b
  let b := appendC b (.olClose "</ol>\n")
  let b := appendC b (.olOpen "<ol>\n")
  let b := document.Annexes.enum.foldl (fun b p =>
    appendC b (.raw ("<li><strong>Annexe " ++ toAnnex p.1 ++ "</strong>: <a href='#" ++ annexAnchorName p.2.Title ++ "'>" ++ p.2.Title ++ "</a></li>\n"))) b
  let b := appendC b (.olClose "</ol>\n")
  appendC b (.raw "</div>\n")

/-- The chapter loop body of `Builder.Build` (index is the 0-based position). -/
def handleChapterB (b : BState) (p : Nat × Chapter) : BState :=
  let b := { b with newSection := true }
  let b := appendC b (.heading ("<h2><a id='" ++ anchorName p.2.Title ++ "'></a>" ++ toRoman (p.1 : Int) ++ " - " ++ p.2.Title ++ "</h2>\n"))
  let b := p.2.Items.foldl handleItem b
  p.2.Sections.foldl handleSection b

/-- The annex loop body of `Builder.Build`. -/
def handleAnnexB (b : BState) (p : Nat × Section) : BState :=
  let b := appendC b (.raw "<div class='annex'>\n")
  let b := appendC b (.heading ("<h2><a name='" ++ annexAnchorName p.2.Title ++ "'></a>Annexe " ++ toAnnex p.1 ++ ": " ++ p.2.Title ++ "</h2>\n"))
  let b := { b with newSection := true }
  let b := p.2.Items.foldl handleItem b
  appendC b (.raw "</div>\n")

/-- `Builder{Config: config}` (zero values) followed by `Build`'s
`content.Reset()` and `paragraphIsOpen = false`. -/
def bInit (config : BuilderConfig) : BState :=
  { err := none, chunks := [], paragraphIsOpen := false, newSection := false,
    tableRowIndex := 0, tableTitle := "", Config := config }

/-- builder.go `Builder.Build`: optional table of contents, then top-level
sections, chapters (items then nested sections), then annexes.  Note that
`document.Items` is never visited. -/
def builderBuild (config : BuilderConfig) (document : Document) : BState :=
  let b := bInit config
  let b := if config.TableOfContents then buildTableOfContents b document else b
  let b := document.Sections.foldl handleSection b
  let b := document.Chapters.enum.foldl handleChapterB b
  document.Annexes.enum.foldl handleAnnexB b

/-- `strings.Replace(input, "%", "%%", -1)` in `Build`. -/
def escapePercent : List Char → List Char
  | [] => []
  | c :: r => if c = '%' then '%' :: '%' :: escapePercent r else c :: escapePercent r

/-- The chunk trace of the whole pipeline (lex → assemble → emit). -/
def pipelineChunks (fuel : Nat) (input : String) (config : BuilderConfig) : List Chunk :=
  (builderBuild config (assembleDoc (lexItems fuel (escapePercent input.data)))).chunks

/-- The HTML string of the whole pipeline. -/
def pipelineStr (fuel : Nat) (input : String) (config : BuilderConfig) : String :=
  String.join ((pipelineChunks fuel input config).map Chunk.str)

/-- Modelled from the spec (C8 wording): the synthetic header block the first
`TableRow` of a table must produce — one header cell spanning all `n` columns,
containing the recorded table title, wrapped in the head block markup. -/
def theadBlock (n : Nat) (title : String) : List Chunk :=
  [.raw "<thead>\n", .raw "<tr>\n",
   .raw ("<th colspan='" ++ toString n ++ "'>" ++ title ++ "</th>\n"),
   .raw "</tr>\n", .raw "</thead>\n", .raw "<tbody>\n"]

/-- Modelled from the spec (C8 wording): a non-lead cell renders as a header
cell when the row is the first data row, as a regular cell otherwise. -/
def tdCellChunk (isHeadRow : Bool) (cell : String) : Chunk :=
  if isHeadRow then .raw ("<td class='head'>" ++ cell ++ "</td>\n")
  else .raw ("<td class='lead'>" ++ cell ++ "</td>\n")

/-- Modelled from the spec (C8 wording): a data row — the first cell always
styled as a row-head cell, the remaining cells header-styled exactly on the
first data row. -/
def dataRow (cells : List String) (isHeadRow : Bool) : List Chunk :=
  [.raw "<tr>\n", .raw ("<td class='head'>" ++ cells.headD "" ++ "</td>\n")]
  ++ cells.tail.map (tdCellChunk isHeadRow) ++ [.raw "</tr>\n"]

/-- Substring occurrence test (for stating trigger-freeness). -/
def hasSub (pat : List Char) : List Char → Bool
  | [] => leadsWith pat []
  | c :: r => leadsWith pat (c :: r) || hasSub pat r

/-- The single-char triggers of the grammar (`\n`, `#`, `*`, `[`, `\`). -/
def trigChars : List Char := ['\n', '#', '*', '[', '\\']

/-- The input contains none of the grammar's trigger sequences: no single-char
trigger anywhere (which also rules out `##` and `\n- `), and no occurrence of
`ANNEX`, `-table-` or `__`. -/
def triggerFree (s : List Char) : Bool :=
  s.all (fun c => !(trigChars.contains c)) &&
  !(hasSub annexMark s) && !(hasSub tableMark s) && !(hasSub emSymbolMark s)

/-- Paragraph open/close effect of one chunk. -/
def chunkPara (b : Bool) : Chunk → Bool
  | .pOpen _ => true
  | .pClose _ => false
  | _ => b

/-- Paragraph state after a chunk trace. -/
def paraSt (b : Bool) : List Chunk → Bool
  | [] => b
  | c :: r => paraSt (chunkPara b c) r

/-- A chunk is admissible at paragraph state `b` if it is not a list-open or
table-open emitted while a paragraph is open. -/
def chunkOk (b : Bool) : Chunk → Bool
  | .olOpen _ => !b
  | .tableOpen _ => !b
  | _ => true

/-- Every list-open and table-open in the trace happens with the paragraph
closed. -/
def paraOkTL (b : Bool) : List Chunk → Bool
  | [] => true
  | c :: r => chunkOk b c && paraOkTL (chunkPara b c) r

/-- A chunk is admissible in the sense of claim C5 as stated: no list-open,
table-open or heading while a paragraph is open. -/
def chunkOkFull (b : Bool) : Chunk → Bool
  | .olOpen _ => !b
  | .tableOpen _ => !b
  | .heading _ => !b
  | _ => true

/-- Claim C5 as stated, over a chunk trace: paragraphs closed before every
table, list and heading emission. -/
def paraOkFull (b : Bool) : List Chunk → Bool
  | [] => true
  | c :: r => chunkOkFull b c && paraOkFull (chunkPara b c) r

/-- The emitter invariant: no write error, the `paragraphIsOpen` flag agrees
with the paragraph state of the trace emitted so far, and every list/table
opening so far happened with the paragraph closed. -/
def BInv (b : BState) : Prop :=
  b.err = none ∧ paraSt false b.chunks = b.paragraphIsOpen ∧ paraOkTL false b.chunks = true

def olOpens (l : List Chunk) : Nat :=
  l.countP (fun c => match c with | .olOpen _ => true | _ => false)

def olCloses (l : List Chunk) : Nat :=
  l.countP (fun c => match c with | .olClose _ => true | _ => false)

def tokCount (t : ItemType) (items : List Item) : Nat :=
  items.countP (fun it => it.typ = t)

/-- Number of tokens of type `t` in every item list the emitter visits
(`document.Items` excluded: `Builder.Build` never walks it). -/
def docTokCount (t : ItemType) (d : Document) : Nat :=
  (d.Sections.map (fun s => tokCount t s.Items)).sum +
  (d.Chapters.map (fun c => tokCount t c.Items + (c.Sections.map (fun s => tokCount t s.Items)).sum)).sum +
  (d.Annexes.map (fun a => tokCount t a.Items)).sum

/-! ## Basic facts about the emitter primitives -/

theorem appendC_paragraphIsOpen (b : BState) (c : Chunk) :
    (appendC b c).paragraphIsOpen = b.paragraphIsOpen := by
  unfold appendC; split <;> rfl

theorem appendC_newSection (b : BState) (c : Chunk) :
    (appendC b c).newSection = b.newSection := by
  unfold appendC; split <;> rfl

theorem appendC_tableRowIndex (b : BState) (c : Chunk) :
    (appendC b c).tableRowIndex = b.tableRowIndex := by
  unfold appendC; split <;> rfl

theorem appendC_tableTitle (b : BState) (c : Chunk) :
    (appendC b c).tableTitle = b.tableTitle := by
  unfold appendC; split <;> rfl

theorem appendC_err (b : BState) (c : Chunk) (h : b.err = none) :
    (appendC b c).err = none := by
  simp [appendC, h, writeStringErr]

theorem appendC_chunks (b : BState) (c : Chunk) (h : b.err = none) :
    (appendC b c).chunks = b.chunks ++ [c] := by
  simp [appendC, h]

theorem closeParagraph_paragraphIsOpen (b : BState) :
    (closeParagraph b).paragraphIsOpen = false := by
  by_cases h : b.paragraphIsOpen <;> simp [closeParagraph, h, appendC_paragraphIsOpen]

theorem closeParagraph_newSection (b : BState) :
    (closeParagraph b).newSection = b.newSection := by
  by_cases h : b.paragraphIsOpen <;> simp [closeParagraph, h, appendC_newSection]

theorem closeParagraph_tableRowIndex (b : BState) :
    (closeParagraph b).tableRowIndex = b.tableRowIndex := by
  by_cases h : b.paragraphIsOpen <;> simp [closeParagraph, h, appendC_tableRowIndex]

theorem closeParagraph_tableTitle (b : BState) :
    (closeParagraph b).tableTitle = b.tableTitle := by
  by_cases h : b.paragraphIsOpen <;> simp [closeParagraph, h, appendC_tableTitle]

theorem closeParagraph_err (b : BState) (h : b.err = none) :
    (closeParagraph b).err = none := by
  by_cases hp : b.paragraphIsOpen
  · simpa [closeParagraph, hp] using appendC_err { b with paragraphIsOpen := false } _ h
  · simpa [closeParagraph, hp] using h

theorem openParagraph_paragraphIsOpen (b : BState) :
    (openParagraph b).paragraphIsOpen = true := by
  by_cases h : b.paragraphIsOpen <;>
    by_cases h2 : b.newSection <;>
      simp [openParagraph, h, h2, appendC_paragraphIsOpen]

theorem openParagraph_tableRowIndex (b : BState) :
    (openParagraph b).tableRowIndex = b.tableRowIndex := by
  by_cases h : b.paragraphIsOpen <;>
    by_cases h2 : b.newSection <;>
      simp [openParagraph, h, h2, appendC_tableRowIndex]

theorem openParagraph_tableTitle (b : BState) :
    (openParagraph b).tableTitle = b.tableTitle := by
  by_cases h : b.paragraphIsOpen <;>
    by_cases h2 : b.newSection <;>
      simp [openParagraph, h, h2, appendC_tableTitle]

theorem openParagraph_err (b : BState) (h : b.err = none) :
    (openParagraph b).err = none := by
  by_cases hp : b.paragraphIsOpen
  · simpa [openParagraph, hp] using h
  · by_cases h2 : b.newSection
    · simpa [openParagraph, hp, h2] using
        appendC_err { b with paragraphIsOpen := true, newSection := false } _ h
    · simpa [openParagraph, hp, h2] using
        appendC_err { b with paragraphIsOpen := true } _ h

/-! ## Chunk-trace bookkeeping -/

theorem paraSt_append (l1 l2 : List Chunk) : ∀ b, paraSt b (l1 ++ l2) = paraSt (paraSt b l1) l2 := by
  induction l1 with
  | nil => intro b; rfl
  | cons c r ih => intro b; simp [paraSt, ih]

theorem paraOkTL_append (l1 l2 : List Chunk) :
    ∀ b, paraOkTL b (l1 ++ l2) = (paraOkTL b l1 && paraOkTL (paraSt b l1) l2) := by
  induction l1 with
  | nil => intro b; rfl
  | cons c r ih => intro b; simp [paraOkTL, paraSt, ih, Bool.and_assoc]

theorem olOpens_append (l1 l2 : List Chunk) : olOpens (l1 ++ l2) = olOpens l1 + olOpens l2 :=
  List.countP_append _ _ _

theorem olCloses_append (l1 l2 : List Chunk) : olCloses (l1 ++ l2) = olCloses l1 + olCloses l2 :=
  List.countP_append _ _ _

/-! ## C2 / C3: the sub-lexers without an eof guard spin forever -/

theorem lexSt_width_eta (l : LexSt) (h : l.width = 0) : { l with width := 0 } = l := by
  cases l; simp_all

theorem lnext_past_end (l : LexSt) (hp : l.input.length ≤ l.pos) (hw : l.width = 0) :
    lnext l = (eofCh, l) := by
  simp [lnext, hp, lexSt_width_eta l hw]

theorem lexRun_boldSt_stuck (fn : Cont) :
    ∀ (n : Nat) (l : LexSt), l.input.length ≤ l.pos → l.width = 0 →
      lexRun n (.boldSt fn) l = [] := by
  intro n
  induction n with
  | zero => intro l _ _; rfl
  | succ n ih =>
    intro l hp hw
    have hne : ¬ (eofCh = '*') := by decide
    have hstep : step (.boldSt fn) l = ([], .boldSt fn, l) := by
      simp [step, lnext_past_end l hp hw, hne]
    simp [lexRun, hstep, ih l hp hw]

theorem lexRun_cmdArgsSt_stuck (cmd : String) (fn : Cont) :
    ∀ (n : Nat) (l : LexSt), l.input.length ≤ l.pos → l.width = 0 →
      lexRun n (.cmdArgsSt cmd fn) l = [] := by
  intro n
  induction n with
  | zero => intro l _ _; rfl
  | succ n ih =>
    intro l hp hw
    have hne : ¬ (eofCh = ')') := by decide
    have hstep : step (.cmdArgsSt cmd fn) l = ([], .cmdArgsSt cmd fn, l) := by
      simp [step, lnext_past_end l hp hw, hne]
    simp [lexRun, hstep, ih l hp hw]

/-- C2: the lexer is NOT a finite producer.  On the unterminated bold input
`"*a"` it emits one (empty) Text token, enters `lexBold`, and then — for every
additional amount of fuel — emits nothing further: no `EndOfInput`, no
`LexError`.  Go's `nextItem` therefore never returns; `lexBold` has no eof
guard and does not back up into the text state (unlike the heading and
list-item states, which do). -/
theorem c2_unterminated_bold_loops (n : Nat) :
    lexItems (n + 4) "*a".data = [⟨.itemText, "", 1⟩] := by
  have h4 : lexItems (n + 4) "*a".data =
      [⟨.itemText, "", 1⟩] ++ lexRun n (.boldSt .text) ⟨"*a".data, 1, 2, 0, 1⟩ := rfl
  rw [h4, lexRun_boldSt_stuck .text n ⟨"*a".data, 1, 2, 0, 1⟩ (by decide) rfl]
  rfl

/-- C3: on the malformed input `"\c(a"` (unclosed command argument list) the
lexer emits one (empty) Text token, enters `lexCmdArgs`, and then — for every
additional amount of fuel — emits nothing further.  In particular no
`LexError` item carrying a line number is ever produced (`errorf` is dead
code), so `Build` neither aborts with an error nor returns at all. -/
theorem c3_unclosed_command_loops (n : Nat) :
    lexItems (n + 6) "\\c(a".data = [⟨.itemText, "", 1⟩] := by
  have h6 : lexItems (n + 6) "\\c(a".data =
      [⟨.itemText, "", 1⟩] ++ lexRun n (.cmdArgsSt "c" .text) ⟨"\\c(a".data, 3, 4, 0, 1⟩ := rfl
  rw [h6, lexRun_cmdArgsSt_stuck "c" .text n ⟨"\\c(a".data, 3, 4, 0, 1⟩ (by decide) rfl]
  rfl

/-! ## C4: the assembler after an AnnexHeading -/

theorem updLast_ne_nil (f : α → α) (l : List α) (h : l ≠ []) : updLast f l ≠ [] := by
  cases l with
  | nil => exact absurd rfl h
  | cons a r => cases r <;> simp [updLast]

theorem updLast_cons (f : α → α) (a : α) (l : List α) (h : l ≠ []) :
    updLast f (a :: l) = a :: updLast f l := by
  cases l with
  | nil => exact absurd rfl h
  | cons b r => rfl

theorem updLast_updLast (f g : α → α) (l : List α) :
    updLast f (updLast g l) = updLast (fun x => f (g x)) l := by
  induction l with
  | nil => rfl
  | cons a r ih =>
    cases r with
    | nil => rfl
    | cons b r2 =>
      rw [updLast_cons g a (b :: r2) (by simp),
          updLast_cons f a _ (updLast_ne_nil g _ (by simp)), ih,
          updLast_cons _ a _ (by simp)]

theorem getLast?_updLast (f : α → α) (l : List α) :
    (updLast f l).getLast? = Option.map f l.getLast? := by
  induction l with
  | nil => rfl
  | cons a r ih =>
    cases r with
    | nil => rfl
    | cons b r2 =>
      rw [updLast_cons f a (b :: r2) (by simp)]
      have h1 : (a :: updLast f (b :: r2)).getLast? = (updLast f (b :: r2)).getLast? := by
        cases hr : updLast f (b :: r2) with
        | nil => exact absurd hr (updLast_ne_nil f _ (by simp))
        | cons c t => exact List.getLast?_cons_cons
      rw [h1, ih, List.getLast?_cons_cons]

theorem updLast_append_singleton (f : α → α) (l : List α) (x : α) :
    updLast f (l ++ [x]) = l ++ [f x] := by
  induction l with
  | nil => rfl
  | cons a r ih =>
    rw [List.cons_append, updLast_cons f a (r ++ [x]) (by simp), ih, List.cons_append]

/-- Any token other than a Chapter/Section/Annex heading is appended to the
active items container. -/
theorem asmStep_default (st : AsmSt) (it : Item)
    (h1 : it.typ ≠ .itemChapter) (h2 : it.typ ≠ .itemSection) (h3 : it.typ ≠ .itemAnnex) :
    asmStep st it = { st with doc := pushItem it st.doc st.itTgt } := by
  cases ht : it.typ <;> simp_all [asmStep]

/-- C4 counterexample: the claim fails.  On the token sequence
Chapter "C", Annex "A", Section "S", Text "x", the assembler places the
Section created after the AnnexHeading — together with the content token
that follows it — into the chapter's sections list: `itemAnnex` retargets the
items pointer but leaves the `sections` pointer aimed at the open chapter. -/
theorem c4_counterexample :
    (assembleDoc [⟨.itemChapter, "C", 1⟩, ⟨.itemAnnex, "A", 1⟩, ⟨.itemSection, "S", 2⟩,
        ⟨.itemText, "x", 2⟩, ⟨.itemEOF, "", 2⟩]).Chapters =
      [{ Title := "C", Items := [],
         Sections := [{ Title := "S", Items := [⟨.itemText, "x", 2⟩] }] }] := by
  decide

/-- C4 amended: after an AnnexHeading, plain content tokens go to the new
annex and never rejoin a chapter; but a subsequent SectionHeading is pushed
onto the still-active sections container — the most recent chapter's sections
list whenever a chapter was open before the annex — and content after that
SectionHeading lands inside that chapter's new section, while the annex stays
empty. -/
theorem c4_amended (st : AsmSt) (a s : String) (la ls : Nat) (t : Item)
    (hsec : st.secTgt = .chap)
    (h1 : t.typ ≠ .itemChapter) (h2 : t.typ ≠ .itemSection) (h3 : t.typ ≠ .itemAnnex) :
    ((asmStep (asmStep (asmStep st ⟨.itemAnnex, a, la⟩) ⟨.itemSection, s, ls⟩) t).doc.Chapters.getLast?).map Chapter.Sections
        = (st.doc.Chapters.getLast?).map (fun c => c.Sections ++ [{ Title := s, Items := [t] }]) ∧
    (asmStep (asmStep (asmStep st ⟨.itemAnnex, a, la⟩) ⟨.itemSection, s, ls⟩) t).doc.Annexes
        = st.doc.Annexes ++ [{ Title := a }] := by
  rw [asmStep_default _ t h1 h2 h3]
  constructor
  · simp only [asmStep, hsec, pushSection, pushItem, updLast_updLast, getLast?_updLast,
      Option.map_map]
    cases hgl : st.doc.Chapters.getLast? with
    | none => rfl
    | some c => simp [updLast_append_singleton]
  · simp [asmStep, hsec, pushSection, pushItem]

/-- C4 witness: the amended statement at a concrete run — chapter "C", then
annex "A", then section "S", then text "x". -/
theorem c4_witness :
    (asmStep asmInit ⟨.itemChapter, "C", 1⟩).secTgt = .chap ∧
    (((asmStep (asmStep (asmStep (asmStep asmInit ⟨.itemChapter, "C", 1⟩) ⟨.itemAnnex, "A", 1⟩) ⟨.itemSection, "S", 2⟩) ⟨.itemText, "x", 2⟩).doc.Chapters.getLast?).map Chapter.Sections
        = (((asmStep asmInit ⟨.itemChapter, "C", 1⟩).doc.Chapters.getLast?).map (fun c => c.Sections ++ [{ Title := "S", Items := [⟨.itemText, "x", 2⟩] }])) ∧
      (asmStep (asmStep (asmStep (asmStep asmInit ⟨.itemChapter, "C", 1⟩) ⟨.itemAnnex, "A", 1⟩) ⟨.itemSection, "S", 2⟩) ⟨.itemText, "x", 2⟩).doc.Annexes
        = (asmStep asmInit ⟨.itemChapter, "C", 1⟩).doc.Annexes ++ [{ Title := "A" }]) :=
  ⟨rfl, c4_amended (asmStep asmInit ⟨.itemChapter, "C", 1⟩) "A" "S" 1 2 ⟨.itemText, "x", 2⟩ rfl
      (by decide) (by decide) (by decide)⟩

/-! ## C10: toRoman -/

theorem highestDecimalGo_bounds :
    ∀ (L : List Int) (n : Int), 0 < n → (∀ v ∈ L, 1 ≤ v) →
      1 ≤ highestDecimalGo L n ∧ highestDecimalGo L n ≤ n := by
  intro L
  induction L with
  | nil => intro n hn _; exact ⟨le_refl 1, hn⟩
  | cons v r ih =>
    intro n hn hL
    by_cases hv : v ≤ n
    · simp only [highestDecimalGo, if_pos hv]
      exact ⟨hL v (by simp), hv⟩
    · simp only [highestDecimalGo, if_neg hv]
      exact ih n hn (fun w hw => hL w (by simp [hw]))

theorem highestDecimal_bounds (n : Int) (hn : 0 < n) :
    1 ≤ highestDecimal n ∧ highestDecimal n ≤ n :=
  highestDecimalGo_bounds maxTable n hn (by decide)

theorem toRomanAux_zero_of_nonpos : ∀ (f : Nat) (n : Int), n ≤ 0 → toRomanAux f n = "" := by
  intro f n h
  cases f with
  | zero => rfl
  | succ f => simp [toRomanAux, show ¬ (0 < n) from not_lt.mpr h]

theorem toRomanAux_congr :
    ∀ (f g : Nat) (n : Int), n.toNat ≤ f → n.toNat ≤ g → toRomanAux f n = toRomanAux g n := by
  intro f
  induction f with
  | zero =>
    intro g n hf _
    have hn : n ≤ 0 := by omega
    rw [toRomanAux_zero_of_nonpos 0 n hn, toRomanAux_zero_of_nonpos g n hn]
  | succ f ih =>
    intro g n hf hg
    by_cases hn : 0 < n
    · obtain ⟨h1, h2⟩ := highestDecimal_bounds n hn
      cases g with
      | zero => omega
      | succ g =>
        simp only [toRomanAux, if_pos hn]
        congr 1
        exact ih g (n - highestDecimal n) (by omega) (by omega)
    · have hle : n ≤ 0 := not_lt.mp hn
      rw [toRomanAux_zero_of_nonpos _ n hle, toRomanAux_zero_of_nonpos g n hle]

/-- C10: `toRoman`'s loop terminates for every integer (any fuel of at least
`n.toNat` passes computes the fixed answer `toRoman n`), it returns `""` for
every `n ≤ 0`, and consequently — since `Builder.Build` and the table of
contents label chapters with `toRoman` of the 0-based chapter index — the
label of the first chapter is the empty string, both in its `<h2>` heading
and in its table-of-contents entry. -/
theorem c10_toRoman_behavior :
    (∀ (f : Nat) (n : Int), n.toNat ≤ f → toRomanAux f n = toRoman n) ∧
    (∀ n : Int, n ≤ 0 → toRoman n = "") ∧
    (builderBuild ⟨false⟩ { Chapters := [{ Title := "T" }] }).chunks =
      [.heading "<h2><a id='t'></a> - T</h2>\n"] ∧
    Chunk.raw "<li><strong></strong> - <a href='#t'>T</a></li>\n" ∈
      (builderBuild ⟨true⟩ { Chapters := [{ Title := "T" }] }).chunks := by
  refine ⟨fun f n hf => toRomanAux_congr f n.toNat n hf (le_refl _),
          fun n hn => toRomanAux_zero_of_nonpos n.toNat n hn, ?_, ?_⟩
  · decide
  · decide

/-- C10 witness: the quantified parts of `c10_toRoman_behavior` at concrete
inputs. -/
theorem c10_witness :
    ((3 : Int).toNat ≤ 5 ∧ toRomanAux 5 3 = toRoman 3) ∧
    ((-2 : Int) ≤ 0 ∧ toRoman (-2) = "") :=
  ⟨⟨by decide, c10_toRoman_behavior.1 5 3 (by decide)⟩,
   ⟨by decide, c10_toRoman_behavior.2.1 (-2) (by decide)⟩⟩

/-! ## C7: the end-to-end chapter example -/

/-- C7 counterexample: the claim fails — on `"#Intro\nHello *world*.\n"` with
the table of contents disabled, the rendered output contains no `<h2>` labeled
with Roman numeral `I`: the emitter labels the chapter with `toRoman` of the
0-based index 0, which is the empty string. -/
theorem c7_counterexample :
    hasSub "I - Intro".data (pipelineStr 64 "#Intro\nHello *world*.\n" ⟨false⟩).data = false := by
  decide

/-- C7 amended: the pipeline on `"#Intro\nHello *world*.\n"` (table of
contents disabled) produces the chapter `<h2>` labeled with the EMPTY Roman
numeral (`toRoman 0 = ""`, so the heading reads ` - Intro`), followed by one
paragraph containing `Hello <strong>world</strong>.`. -/
theorem c7_amended :
    pipelineStr 64 "#Intro\nHello *world*.\n" ⟨false⟩ =
      "<h2><a id='intro'></a> - Intro</h2>\n<p class='indent'>\nHello <strong>world</strong>.\n</p>\n" := by
  decide

/-! ## C8: table rows -/

theorem appendC_none (ch : List Chunk) (p ns : Bool) (tri : Int) (tt : String)
    (cfg : BuilderConfig) (c : Chunk) :
    appendC ⟨none, ch, p, ns, tri, tt, cfg⟩ c = ⟨none, ch ++ [c], p, ns, tri, tt, cfg⟩ := by
  norm_num [appendC, writeStringErr]

theorem foldl_td_run_head (cells : List String) :
    ∀ (ch : List Chunk) (p ns : Bool) (tt : String) (cfg : BuilderConfig),
      cells.foldl (fun b cell =>
          if b.tableRowIndex = 0 then appendC b (.raw ("<td class='head'>" ++ cell ++ "</td>\n"))
          else appendC b (.raw ("<td class='lead'>" ++ cell ++ "</td>\n")))
        ⟨none, ch, p, ns, 0, tt, cfg⟩
      = ⟨none, ch ++ cells.map (tdCellChunk true), p, ns, 0, tt, cfg⟩ := by
  induction cells with
  | nil => intro ch p ns tt cfg; simp
  | cons cell r ih =>
    intro ch p ns tt cfg
    simp only [List.foldl_cons, List.map_cons]
    norm_num [appendC_none]
    rw [ih]
    simp [tdCellChunk]

theorem foldl_td_run_lead (cells : List String) :
    ∀ (ch : List Chunk) (p ns : Bool) (m : Nat) (tt : String) (cfg : BuilderConfig),
      cells.foldl (fun b cell =>
          if b.tableRowIndex = 0 then appendC b (.raw ("<td class='head'>" ++ cell ++ "</td>\n"))
          else appendC b (.raw ("<td class='lead'>" ++ cell ++ "</td>\n")))
        ⟨none, ch, p, ns, (m : Int) + 1, tt, cfg⟩
      = ⟨none, ch ++ cells.map (tdCellChunk false), p, ns, (m : Int) + 1, tt, cfg⟩ := by
  induction cells with
  | nil => intro ch p ns m tt cfg; simp
  | cons cell r ih =>
    intro ch p ns m tt cfg
    have hne : ¬ ((m : Int) + 1 = 0) := by omega
    simp only [List.foldl_cons, List.map_cons]
    norm_num [appendC_none, hne]
    rw [ih]
    simp [tdCellChunk]

/-- C8: for every emitter state with no pending write error, a TableRow token
behaves as the claim says.  If it is the first row of the current table
(`tableRowIndex = -1`), the emission is the synthetic header block — a single
header cell whose column-span equals that row's cell count, containing the
recorded table title — followed by a data row whose non-lead cells are
header-styled, and the row counter becomes 0.  For every later row
(`tableRowIndex ≥ 0`) only a data row is emitted, its first cell row-head
styled and its non-lead cells NOT header-styled, and the counter increments. -/
theorem c8_tableRow_rendering (b : BState) (it : Item)
    (hb : b.err = none) (ht : it.typ = .itemTableRow) :
    (b.tableRowIndex = -1 →
        (handleItem b it).chunks
          = b.chunks ++ (theadBlock (goSplitChar '|' it.val).length b.tableTitle
              ++ dataRow (goSplitChar '|' it.val) true) ∧
        (handleItem b it).tableRowIndex = 0) ∧
    (0 ≤ b.tableRowIndex →
        (handleItem b it).chunks = b.chunks ++ dataRow (goSplitChar '|' it.val) false ∧
        (handleItem b it).tableRowIndex = b.tableRowIndex + 1) := by
  obtain ⟨berr, bch, bp, bns, btri, btt, bcfg⟩ := b
  replace hb : berr = none := hb
  subst hb
  constructor
  · intro h0
    replace h0 : btri = -1 := h0
    subst h0
    simp only [handleItem, ht]
    norm_num [appendC_none]
    rw [foldl_td_run_head]
    norm_num [appendC_none, theadBlock, dataRow]
  · intro h0
    replace h0 : (0 : Int) ≤ btri := h0
    obtain ⟨m, hm⟩ : ∃ m : Nat, btri = (m : Int) := ⟨btri.toNat, by omega⟩
    subst hm
    have hne : ¬ ((m : Int) = -1) := by omega
    simp only [handleItem, ht]
    norm_num [appendC_none, hne]
    rw [foldl_td_run_lead]
    norm_num [appendC_none, dataRow]

/-- C8 witness: the theorem applied to a concrete first and second row of a
table titled `T`. -/
theorem c8_witness :
    ((handleItem { bInit ⟨false⟩ with tableRowIndex := -1, tableTitle := "T" } ⟨.itemTableRow, "a|b", 1⟩).chunks
      = theadBlock 2 "T" ++ dataRow ["a", "b"] true ∧
     (handleItem { bInit ⟨false⟩ with tableRowIndex := -1, tableTitle := "T" } ⟨.itemTableRow, "a|b", 1⟩).tableRowIndex = 0) ∧
    ((handleItem { bInit ⟨false⟩ with tableRowIndex := 0, tableTitle := "T" } ⟨.itemTableRow, "c|d", 2⟩).chunks
      = dataRow ["c", "d"] false ∧
     (handleItem { bInit ⟨false⟩ with tableRowIndex := 0, tableTitle := "T" } ⟨.itemTableRow, "c|d", 2⟩).tableRowIndex = 1) := by
  constructor
  · have h := (c8_tableRow_rendering { bInit ⟨false⟩ with tableRowIndex := -1, tableTitle := "T" }
      ⟨.itemTableRow, "a|b", 1⟩ rfl rfl).1 rfl
    exact ⟨by rw [h.1]; decide, h.2⟩
  · have h := (c8_tableRow_rendering { bInit ⟨false⟩ with tableRowIndex := 0, tableTitle := "T" }
      ⟨.itemTableRow, "c|d", 2⟩ rfl rfl).2 (by decide)
    exact ⟨by rw [h.1]; decide, h.2⟩

/-! ## The emitter invariant: paragraph bookkeeping, errors, list counts -/

theorem chunkOk_raw (x : Bool) (s : String) : chunkOk x (.raw s) = true := rfl

theorem binv_appendC_para_neutral (b : BState) (c : Chunk) (h : BInv b)
    (hn : ∀ x, chunkPara x c = x) (hok : chunkOk b.paragraphIsOpen c = true) :
    BInv (appendC b c) := by
  obtain ⟨he, hp, hk⟩ := h
  refine ⟨appendC_err _ _ he, ?_, ?_⟩
  · rw [appendC_chunks _ _ he, paraSt_append, appendC_paragraphIsOpen]
    simp [paraSt, hn, hp]
  · rw [appendC_chunks _ _ he, paraOkTL_append, hk]
    simp only [paraOkTL, hp, hok, Bool.and_true, Bool.true_and]

theorem binv_app_raw (b : BState) (s : String) (h : BInv b) : BInv (appendC b (.raw s)) :=
  binv_appendC_para_neutral b _ h (fun _ => rfl) rfl

theorem binv_app_heading (b : BState) (s : String) (h : BInv b) : BInv (appendC b (.heading s)) :=
  binv_appendC_para_neutral b _ h (fun _ => rfl) rfl

theorem binv_app_olClose (b : BState) (s : String) (h : BInv b) : BInv (appendC b (.olClose s)) :=
  binv_appendC_para_neutral b _ h (fun _ => rfl) rfl

theorem binv_app_olOpen (b : BState) (s : String) (h : BInv b)
    (hf : b.paragraphIsOpen = false) : BInv (appendC b (.olOpen s)) :=
  binv_appendC_para_neutral b _ h (fun _ => rfl) (by simp [chunkOk, hf])

theorem binv_app_tableOpen (b : BState) (s : String) (h : BInv b)
    (hf : b.paragraphIsOpen = false) : BInv (appendC b (.tableOpen s)) :=
  binv_appendC_para_neutral b _ h (fun _ => rfl) (by simp [chunkOk, hf])

theorem binv_closeParagraph (b : BState) (h : BInv b) : BInv (closeParagraph b) := by
  obtain ⟨he, hp, hk⟩ := h
  by_cases hpo : b.paragraphIsOpen
  · unfold closeParagraph
    rw [if_pos hpo]
    have he2 : ({ b with paragraphIsOpen := false } : BState).err = none := he
    refine ⟨appendC_err _ _ he2, ?_, ?_⟩
    · rw [appendC_chunks _ _ he2, appendC_paragraphIsOpen]
      simp only [show ({ b with paragraphIsOpen := false } : BState).chunks = b.chunks from rfl]
      rw [paraSt_append]
      simp [paraSt, chunkPara]
    · rw [appendC_chunks _ _ he2]
      simp only [show ({ b with paragraphIsOpen := false } : BState).chunks = b.chunks from rfl]
      rw [paraOkTL_append, hk]
      simp [paraOkTL, chunkOk]
  · simpa [closeParagraph, hpo] using ⟨he, hp, hk⟩

theorem binv_openParagraph (b : BState) (h : BInv b) : BInv (openParagraph b) := by
  obtain ⟨he, hp, hk⟩ := h
  by_cases hpo : b.paragraphIsOpen
  · simpa [openParagraph, hpo] using ⟨he, hp, hk⟩
  · by_cases hns : b.newSection
    · unfold openParagraph
      rw [if_pos (by simp [hpo, hns])]
      have he2 : ({ b with paragraphIsOpen := true, newSection := false } : BState).err = none := he
      refine ⟨appendC_err _ _ he2, ?_, ?_⟩
      · rw [appendC_chunks _ _ he2, appendC_paragraphIsOpen]
        simp only [show ({ b with paragraphIsOpen := true, newSection := false } : BState).chunks = b.chunks from rfl]
        rw [paraSt_append]
        simp [paraSt, chunkPara]
      · rw [appendC_chunks _ _ he2]
        simp only [show ({ b with paragraphIsOpen := true, newSection := false } : BState).chunks = b.chunks from rfl]
        rw [paraOkTL_append, hk]
        simp [paraOkTL, chunkOk]
    · unfold openParagraph
      rw [if_neg (by simp [hpo, hns]), if_pos (by simp [hpo])]
      have he2 : ({ b with paragraphIsOpen := true } : BState).err = none := he
      refine ⟨appendC_err _ _ he2, ?_, ?_⟩
      · rw [appendC_chunks _ _ he2, appendC_paragraphIsOpen]
        simp only [show ({ b with paragraphIsOpen := true } : BState).chunks = b.chunks from rfl]
        rw [paraSt_append]
        simp [paraSt, chunkPara]
      · rw [appendC_chunks _ _ he2]
        simp only [show ({ b with paragraphIsOpen := true } : BState).chunks = b.chunks from rfl]
        rw [paraOkTL_append, hk]
        simp [paraOkTL, chunkOk]

theorem olcnt_appendC (b : BState) (c : Chunk) (he : b.err = none) :
    olOpens (appendC b c).chunks = olOpens b.chunks + olOpens [c] ∧
    olCloses (appendC b c).chunks = olCloses b.chunks + olCloses [c] := by
  rw [appendC_chunks _ _ he]
  exact ⟨olOpens_append _ _, olCloses_append _ _⟩

theorem olcnt_closeParagraph (b : BState) (he : b.err = none) :
    olOpens (closeParagraph b).chunks = olOpens b.chunks ∧
    olCloses (closeParagraph b).chunks = olCloses b.chunks := by
  by_cases hpo : b.paragraphIsOpen
  · unfold closeParagraph
    rw [if_pos hpo]
    exact olcnt_appendC { b with paragraphIsOpen := false } _ he
  · simp [closeParagraph, hpo]

theorem olcnt_openParagraph (b : BState) (he : b.err = none) :
    olOpens (openParagraph b).chunks = olOpens b.chunks ∧
    olCloses (openParagraph b).chunks = olCloses b.chunks := by
  by_cases hpo : b.paragraphIsOpen
  · simp [openParagraph, hpo]
  · by_cases hns : b.newSection
    · unfold openParagraph
      rw [if_pos (by simp [hpo, hns])]
      exact olcnt_appendC { b with paragraphIsOpen := true, newSection := false } _ he
    · unfold openParagraph
      rw [if_neg (by simp [hpo, hns]), if_pos (by simp [hpo])]
      exact olcnt_appendC { b with paragraphIsOpen := true } _ he

/-- The paragraph flag survives `closeParagraph` + `appendC` chains with a
known value; packaged with the error for convenient chaining. -/
theorem binv_err (b : BState) (h : BInv b) : b.err = none := h.1

theorem paraSt_raws (rs : List String) : ∀ x, paraSt x (rs.map Chunk.raw) = x := by
  induction rs with
  | nil => intro x; rfl
  | cons s r ih => intro x; simpa [paraSt, chunkPara] using ih x

theorem paraOkTL_raws (rs : List String) : ∀ x, paraOkTL x (rs.map Chunk.raw) = true := by
  induction rs with
  | nil => intro x; rfl
  | cons s r ih => intro x; simpa [paraOkTL, chunkOk, chunkPara] using ih x

theorem olOpens_raws (rs : List String) : olOpens (rs.map Chunk.raw) = 0 := by
  induction rs with
  | nil => rfl
  | cons s r ih => simpa [olOpens, List.countP_cons] using ih

theorem olCloses_raws (rs : List String) : olCloses (rs.map Chunk.raw) = 0 := by
  induction rs with
  | nil => rfl
  | cons s r ih => simpa [olCloses, List.countP_cons] using ih

/-- A state whose trace extends an invariant state's trace by raw chunks only
(and whose other relevant fields are unchanged) is invariant, with unchanged
list counts. -/
theorem binv_of_raws (b b2 : BState) (rs : List String) (h : BInv b)
    (hch : b2.chunks = b.chunks ++ rs.map Chunk.raw)
    (he : b2.err = none) (hp : b2.paragraphIsOpen = b.paragraphIsOpen) :
    BInv b2 ∧ olOpens b2.chunks = olOpens b.chunks ∧ olCloses b2.chunks = olCloses b.chunks := by
  obtain ⟨he0, hp0, hk0⟩ := h
  refine ⟨⟨he, ?_, ?_⟩, ?_, ?_⟩
  · rw [hch, paraSt_append, hp0, paraSt_raws, hp]
  · rw [hch, paraOkTL_append, hk0, hp0, paraOkTL_raws]
    rfl
  · rw [hch, olOpens_append, olOpens_raws, Nat.add_zero]
  · rw [hch, olCloses_append, olCloses_raws, Nat.add_zero]

/-- The cell loop of a TableRow appends raw chunks only. -/
theorem foldl_td_raws (cells : List String) :
    ∀ (b : BState), b.err = none →
      ∃ rs : List String,
        (cells.foldl (fun b cell =>
            if b.tableRowIndex = 0 then appendC b (.raw ("<td class='head'>" ++ cell ++ "</td>\n"))
            else appendC b (.raw ("<td class='lead'>" ++ cell ++ "</td>\n"))) b).chunks
          = b.chunks ++ rs.map Chunk.raw ∧
        (cells.foldl (fun b cell =>
            if b.tableRowIndex = 0 then appendC b (.raw ("<td class='head'>" ++ cell ++ "</td>\n"))
            else appendC b (.raw ("<td class='lead'>" ++ cell ++ "</td>\n"))) b).err = none ∧
        (cells.foldl (fun b cell =>
            if b.tableRowIndex = 0 then appendC b (.raw ("<td class='head'>" ++ cell ++ "</td>\n"))
            else appendC b (.raw ("<td class='lead'>" ++ cell ++ "</td>\n"))) b).paragraphIsOpen = b.paragraphIsOpen := by
  induction cells with
  | nil => intro b he; exact ⟨[], by simp, he, rfl⟩
  | cons cell r ih =>
    intro b he
    simp only [List.foldl_cons]
    by_cases h0 : b.tableRowIndex = 0
    · rw [if_pos h0]
      obtain ⟨rs, hch, he2, hp2⟩ := ih _ (appendC_err _ _ he)
      refine ⟨("<td class='head'>" ++ cell ++ "</td>\n") :: rs, ?_, he2, ?_⟩
      · rw [hch, appendC_chunks _ _ he]
        simp
      · rw [hp2, appendC_paragraphIsOpen]
    · rw [if_neg h0]
      obtain ⟨rs, hch, he2, hp2⟩ := ih _ (appendC_err _ _ he)
      refine ⟨("<td class='lead'>" ++ cell ++ "</td>\n") :: rs, ?_, he2, ?_⟩
      · rw [hch, appendC_chunks _ _ he]
        simp
      · rw [hp2, appendC_paragraphIsOpen]

/-- A TableRow emission is a pure raw-chunk extension of the trace. -/
theorem handleItem_tableRow_raws (b : BState) (it : Item)
    (hb : b.err = none) (ht : it.typ = .itemTableRow) :
    ∃ rs : List String,
      (handleItem b it).chunks = b.chunks ++ rs.map Chunk.raw ∧
      (handleItem b it).err = none ∧
      (handleItem b it).paragraphIsOpen = b.paragraphIsOpen := by
  simp only [handleItem, ht]
  by_cases h0 : b.tableRowIndex = -1
  · rw [if_pos h0]
    set b1 := appendC (appendC (appendC (appendC (appendC (appendC b (.raw "<thead>\n")) (.raw "<tr>\n"))
      (.raw ("<th colspan='" ++ toString (goSplitChar '|' it.val).length ++ "'>" ++
        (appendC (appendC b (.raw "<thead>\n")) (.raw "<tr>\n")).tableTitle ++ "</th>\n")))
      (.raw "</tr>\n")) (.raw "</thead>\n")) (.raw "<tbody>\n") with hb1
    have he1 : b1.err = none := by
      simp only [hb1]
      exact appendC_err _ _ (appendC_err _ _ (appendC_err _ _ (appendC_err _ _ (appendC_err _ _ (appendC_err _ _ hb)))))
    have hch1 : b1.chunks = b.chunks ++ ([("<thead>\n" : String), "<tr>\n",
        ("<th colspan='" ++ toString (goSplitChar '|' it.val).length ++ "'>" ++
          (appendC (appendC b (.raw "<thead>\n")) (.raw "<tr>\n")).tableTitle ++ "</th>\n"),
        "</tr>\n", "</thead>\n", "<tbody>\n"]).map Chunk.raw := by
      simp only [hb1]
      rw [appendC_chunks _ _ (appendC_err _ _ (appendC_err _ _ (appendC_err _ _ (appendC_err _ _ (appendC_err _ _ hb))))),
          appendC_chunks _ _ (appendC_err _ _ (appendC_err _ _ (appendC_err _ _ (appendC_err _ _ hb)))),
          appendC_chunks _ _ (appendC_err _ _ (appendC_err _ _ (appendC_err _ _ hb))),
          appendC_chunks _ _ (appendC_err _ _ (appendC_err _ _ hb)),
          appendC_chunks _ _ (appendC_err _ _ hb),
          appendC_chunks _ _ hb]
      simp
    have hp1 : b1.paragraphIsOpen = b.paragraphIsOpen := by
      simp only [hb1, appendC_paragraphIsOpen]
    -- the row part, starting from the state with the incremented counter
    set b2 := appendC (appendC ({ b1 with tableRowIndex := b1.tableRowIndex + 1 }) (.raw "<tr>\n"))
      (.raw ("<td class='head'>" ++ (goSplitChar '|' it.val).headD "" ++ "</td>\n")) with hb2
    have he2 : b2.err = none := appendC_err _ _ (appendC_err _ _ he1)
    obtain ⟨rs, hch3, he3, hp3⟩ := foldl_td_raws (goSplitChar '|' it.val).tail b2 he2
    refine ⟨[("<thead>\n" : String), "<tr>\n",
        ("<th colspan='" ++ toString (goSplitChar '|' it.val).length ++ "'>" ++
          (appendC (appendC b (.raw "<thead>\n")) (.raw "<tr>\n")).tableTitle ++ "</th>\n"),
        "</tr>\n", "</thead>\n", "<tbody>\n", "<tr>\n",
        ("<td class='head'>" ++ (goSplitChar '|' it.val).headD "" ++ "</td>\n")] ++ rs ++ ["</tr>\n"], ?_, ?_, ?_⟩
    · rw [appendC_chunks _ _ he3, hch3]
      have he1b : ({ b1 with tableRowIndex := b1.tableRowIndex + 1 } : BState).err = none := he1
      simp only [hb2, appendC_chunks _ _ (appendC_err _ _ he1b), appendC_chunks _ _ he1b]
      simp only [show ({ b1 with tableRowIndex := b1.tableRowIndex + 1 } : BState).chunks = b1.chunks from rfl, hch1]
      simp [List.append_assoc]
    · exact appendC_err _ _ he3
    · rw [appendC_paragraphIsOpen, hp3]
      simp only [hb2, appendC_paragraphIsOpen]
      rw [show ({ b1 with tableRowIndex := b1.tableRowIndex + 1 } : BState).paragraphIsOpen = b1.paragraphIsOpen from rfl, hp1]
  · rw [if_neg h0]
    set b2 := appendC (appendC ({ b with tableRowIndex := b.tableRowIndex + 1 }) (.raw "<tr>\n"))
      (.raw ("<td class='head'>" ++ (goSplitChar '|' it.val).headD "" ++ "</td>\n")) with hb2
    have he2 : b2.err = none := appendC_err _ _ (appendC_err _ _ hb)
    obtain ⟨rs, hch3, he3, hp3⟩ := foldl_td_raws (goSplitChar '|' it.val).tail b2 he2
    refine ⟨["<tr>\n", ("<td class='head'>" ++ (goSplitChar '|' it.val).headD "" ++ "</td>\n")] ++ rs ++ ["</tr>\n"], ?_, ?_, ?_⟩
    · rw [appendC_chunks _ _ he3, hch3]
      have hbb : ({ b with tableRowIndex := b.tableRowIndex + 1 } : BState).err = none := hb
      simp only [hb2, appendC_chunks _ _ (appendC_err _ _ hbb), appendC_chunks _ _ hbb]
      simp [List.append_assoc]
    · exact appendC_err _ _ he3
    · rw [appendC_paragraphIsOpen, hp3]
      simp only [hb2, appendC_paragraphIsOpen]

theorem olcnt_app_raw (b : BState) (s : String) (he : b.err = none) :
    olOpens (appendC b (.raw s)).chunks = olOpens b.chunks ∧
    olCloses (appendC b (.raw s)).chunks = olCloses b.chunks :=
  ⟨(olcnt_appendC b (.raw s) he).1, (olcnt_appendC b (.raw s) he).2⟩

theorem handleCommand_master (b : BState) (name : String) (args : List String) (h : BInv b) :
    BInv (handleCommand b name args) ∧
    olOpens (handleCommand b name args).chunks = olOpens b.chunks ∧
    olCloses (handleCommand b name args).chunks = olCloses b.chunks := by
  unfold handleCommand
  by_cases h1 : name = "color"
  · rw [if_pos h1]
    exact ⟨binv_app_raw b _ h, (olcnt_app_raw b _ h.1).1, (olcnt_app_raw b _ h.1).2⟩
  · rw [if_neg h1]
    by_cases h2 : name = "img"
    · rw [if_pos h2]
      have hc := binv_closeParagraph b h
      have hcc := olcnt_closeParagraph b h.1
      dsimp only
      split_ifs <;>
        exact ⟨binv_app_raw (closeParagraph b) _ hc,
          ((olcnt_app_raw (closeParagraph b) _ hc.1).1).trans hcc.1,
          ((olcnt_app_raw (closeParagraph b) _ hc.1).2).trans hcc.2⟩
    · rw [if_neg h2]
      exact ⟨h, rfl, rfl⟩

/-- The default (plain content) branch of `handleItem`. -/
theorem handleItem_default_master (b : BState) (val : String) (h : BInv b) :
    BInv (if val ≠ "" then appendC (openParagraph b) (.raw (goFmtStr val)) else b) ∧
    olOpens (if val ≠ "" then appendC (openParagraph b) (.raw (goFmtStr val)) else b).chunks
      = olOpens b.chunks ∧
    olCloses (if val ≠ "" then appendC (openParagraph b) (.raw (goFmtStr val)) else b).chunks
      = olCloses b.chunks := by
  by_cases hv : val = ""
  · subst hv
    exact ⟨h, rfl, rfl⟩
  · rw [if_pos hv]
    have ho := binv_openParagraph b h
    have hoc := olcnt_openParagraph b h.1
    exact ⟨binv_app_raw _ _ ho,
      ((olcnt_appendC _ _ ho.1).1).trans hoc.1,
      ((olcnt_appendC _ _ ho.1).2).trans hoc.2⟩

/-- The Bold/Em/Link-shaped branches: open a paragraph, append inline markup. -/
theorem handleItem_openraw_master (b : BState) (s : String) (h : BInv b) :
    BInv (appendC (openParagraph b) (.raw s)) ∧
    olOpens (appendC (openParagraph b) (.raw s)).chunks = olOpens b.chunks ∧
    olCloses (appendC (openParagraph b) (.raw s)).chunks = olCloses b.chunks := by
  have ho := binv_openParagraph b h
  have hoc := olcnt_openParagraph b h.1
  exact ⟨binv_app_raw _ _ ho,
    ((olcnt_appendC _ _ ho.1).1).trans hoc.1,
    ((olcnt_appendC _ _ ho.1).2).trans hoc.2⟩

/-- The per-token emission master lemma: every token's emission preserves the
invariant, and exactly the ListOpen/ListClose tokens contribute a list-open /
list-close chunk. -/
theorem handleItem_master (b : BState) (it : Item) (h : BInv b) :
    BInv (handleItem b it) ∧
    olOpens (handleItem b it).chunks
      = olOpens b.chunks + (if it.typ = .itemListOpen then 1 else 0) ∧
    olCloses (handleItem b it).chunks
      = olCloses b.chunks + (if it.typ = .itemListClose then 1 else 0) := by
  obtain ⟨typ, val, line⟩ := it
  cases typ
  case itemError => exact handleItem_default_master b val h
  case itemText => exact handleItem_default_master b val h
  case itemChapter => exact handleItem_default_master b val h
  case itemSection => exact handleItem_default_master b val h
  case itemAnnex => exact handleItem_default_master b val h
  case itemEOF => exact handleItem_default_master b val h
  case itemBold => exact handleItem_openraw_master b _ h
  case itemEm => exact handleItem_openraw_master b _ h
  case itemLink => exact handleItem_openraw_master b _ h
  case itemCommand => exact handleCommand_master b _ _ h
  case itemNewLine =>
    exact ⟨binv_closeParagraph b h,
      (olcnt_closeParagraph b h.1).1, (olcnt_closeParagraph b h.1).2⟩
  case itemListOpen =>
    have hc := binv_closeParagraph b h
    refine ⟨binv_app_olOpen _ _ hc (closeParagraph_paragraphIsOpen b), ?_, ?_⟩
    · show olOpens (appendC (closeParagraph b) (.olOpen "<ol class='roman'>\n")).chunks
        = olOpens b.chunks + 1
      rw [(olcnt_appendC _ _ hc.1).1, (olcnt_closeParagraph b h.1).1]
      rfl
    · show olCloses (appendC (closeParagraph b) (.olOpen "<ol class='roman'>\n")).chunks
        = olCloses b.chunks + 0
      rw [(olcnt_appendC _ _ hc.1).2, (olcnt_closeParagraph b h.1).2]
      rfl
  case itemListClose =>
    refine ⟨binv_app_olClose b _ h, ?_, ?_⟩
    · show olOpens (appendC b (.olClose "</ol>\n\n")).chunks = olOpens b.chunks + 0
      rw [(olcnt_appendC _ _ h.1).1]
      rfl
    · show olCloses (appendC b (.olClose "</ol>\n\n")).chunks = olCloses b.chunks + 1
      rw [(olcnt_appendC _ _ h.1).2]
      rfl
  case itemStartListElement =>
    have h1 := binv_app_raw b "\n<li>\n" h
    refine ⟨binv_openParagraph _ h1, ?_, ?_⟩
    · show olOpens (openParagraph (appendC b (.raw "\n<li>\n"))).chunks = olOpens b.chunks + 0
      rw [(olcnt_openParagraph _ h1.1).1, (olcnt_appendC _ _ h.1).1]
      rfl
    · show olCloses (openParagraph (appendC b (.raw "\n<li>\n"))).chunks = olCloses b.chunks + 0
      rw [(olcnt_openParagraph _ h1.1).2, (olcnt_appendC _ _ h.1).2]
      rfl
  case itemEndListElement =>
    have hc := binv_closeParagraph b h
    refine ⟨binv_app_raw _ _ hc, ?_, ?_⟩
    · show olOpens (appendC (closeParagraph b) (.raw "\n</li>\n")).chunks = olOpens b.chunks + 0
      rw [(olcnt_appendC _ _ hc.1).1, (olcnt_closeParagraph b h.1).1]
      rfl
    · show olCloses (appendC (closeParagraph b) (.raw "\n</li>\n")).chunks = olCloses b.chunks + 0
      rw [(olcnt_appendC _ _ hc.1).2, (olcnt_closeParagraph b h.1).2]
      rfl
  case itemTableStart =>
    have hc := binv_closeParagraph b h
    have hc2 : BInv { closeParagraph b with tableRowIndex := -1, tableTitle := val } := hc
    have hf2 : ({ closeParagraph b with tableRowIndex := -1, tableTitle := val } : BState).paragraphIsOpen = false :=
      closeParagraph_paragraphIsOpen b
    refine ⟨binv_app_tableOpen _ _ hc2 hf2, ?_, ?_⟩
    · show olOpens (appendC { closeParagraph b with tableRowIndex := -1, tableTitle := val } (.tableOpen "<table>\n")).chunks
        = olOpens b.chunks + 0
      rw [(olcnt_appendC _ _ hc2.1).1]
      exact (olcnt_closeParagraph b h.1).1
    · show olCloses (appendC { closeParagraph b with tableRowIndex := -1, tableTitle := val } (.tableOpen "<table>\n")).chunks
        = olCloses b.chunks + 0
      rw [(olcnt_appendC _ _ hc2.1).2]
      exact (olcnt_closeParagraph b h.1).2
  case itemTableRow =>
    obtain ⟨rs, hch, he, hp⟩ := handleItem_tableRow_raws b ⟨.itemTableRow, val, line⟩ h.1 rfl
    obtain ⟨g1, g2, g3⟩ := binv_of_raws b _ rs h hch he hp
    exact ⟨g1, g2, g3⟩
  case itemTableEnd =>
    have h1 := binv_app_raw b "</tbody>\n" h
    refine ⟨binv_app_raw _ _ h1, ?_, ?_⟩
    · show olOpens (appendC (appendC b (.raw "</tbody>\n")) (.raw "</table>\n")).chunks
        = olOpens b.chunks + 0
      rw [(olcnt_appendC _ _ h1.1).1, (olcnt_appendC _ _ h.1).1]
      rfl
    · show olCloses (appendC (appendC b (.raw "</tbody>\n")) (.raw "</table>\n")).chunks
        = olCloses b.chunks + 0
      rw [(olcnt_appendC _ _ h1.1).2, (olcnt_appendC _ _ h.1).2]
      rfl

theorem olcnt_app_heading (b : BState) (s : String) (he : b.err = none) :
    olOpens (appendC b (.heading s)).chunks = olOpens b.chunks ∧
    olCloses (appendC b (.heading s)).chunks = olCloses b.chunks :=
  ⟨(olcnt_appendC b (.heading s) he).1, (olcnt_appendC b (.heading s) he).2⟩

theorem tokCount_cons (t : ItemType) (it : Item) (r : List Item) :
    tokCount t (it :: r) = tokCount t r + (if it.typ = t then 1 else 0) := by
  simp [tokCount, List.countP_cons]

theorem foldl_handleItem_master (items : List Item) :
    ∀ b : BState, BInv b →
      BInv (items.foldl handleItem b) ∧
      olOpens (items.foldl handleItem b).chunks
        = olOpens b.chunks + tokCount .itemListOpen items ∧
      olCloses (items.foldl handleItem b).chunks
        = olCloses b.chunks + tokCount .itemListClose items := by
  induction items with
  | nil =>
    intro b h
    refine ⟨h, ?_, ?_⟩ <;> simp [tokCount]
  | cons it r ih =>
    intro b h
    obtain ⟨h1, h2, h3⟩ := handleItem_master b it h
    obtain ⟨g1, g2, g3⟩ := ih (handleItem b it) h1
    refine ⟨g1, ?_, ?_⟩
    · show olOpens (r.foldl handleItem (handleItem b it)).chunks = _
      rw [g2, h2, tokCount_cons]
      omega
    · show olCloses (r.foldl handleItem (handleItem b it)).chunks = _
      rw [g3, h3, tokCount_cons]
      omega

theorem handleSection_master (b : BState) (s : Section) (h : BInv b) :
    BInv (handleSection b s) ∧
    olOpens (handleSection b s).chunks = olOpens b.chunks + tokCount .itemListOpen s.Items ∧
    olCloses (handleSection b s).chunks = olCloses b.chunks + tokCount .itemListClose s.Items := by
  unfold handleSection
  dsimp only
  have h1 : BInv { b with newSection := true } := h
  have h2 := binv_app_heading { b with newSection := true }
    ("<h3><a name='" ++ anchorName s.Title ++ "'></a>" ++ s.Title ++ "</h3>\n") h1
  obtain ⟨g1, g2, g3⟩ := foldl_handleItem_master s.Items _ h2
  refine ⟨g1, ?_, ?_⟩
  · rw [g2, (olcnt_app_heading { b with newSection := true } _ h1.1).1]
  · rw [g3, (olcnt_app_heading { b with newSection := true } _ h1.1).2]

theorem foldl_handleSection_master (ss : List Section) :
    ∀ b : BState, BInv b →
      BInv (ss.foldl handleSection b) ∧
      olOpens (ss.foldl handleSection b).chunks
        = olOpens b.chunks + (ss.map (fun s => tokCount .itemListOpen s.Items)).sum ∧
      olCloses (ss.foldl handleSection b).chunks
        = olCloses b.chunks + (ss.map (fun s => tokCount .itemListClose s.Items)).sum := by
  induction ss with
  | nil =>
    intro b h
    refine ⟨h, ?_, ?_⟩ <;> simp
  | cons s r ih =>
    intro b h
    obtain ⟨h1, h2, h3⟩ := handleSection_master b s h
    obtain ⟨g1, g2, g3⟩ := ih (handleSection b s) h1
    refine ⟨g1, ?_, ?_⟩
    · show olOpens (r.foldl handleSection (handleSection b s)).chunks = _
      rw [g2, h2]
      simp [List.sum_cons]
      omega
    · show olCloses (r.foldl handleSection (handleSection b s)).chunks = _
      rw [g3, h3]
      simp [List.sum_cons]
      omega

theorem handleChapterB_master (b : BState) (p : Nat × Chapter) (h : BInv b) :
    BInv (handleChapterB b p) ∧
    olOpens (handleChapterB b p).chunks
      = olOpens b.chunks + (tokCount .itemListOpen p.2.Items
          + (p.2.Sections.map (fun s => tokCount .itemListOpen s.Items)).sum) ∧
    olCloses (handleChapterB b p).chunks
      = olCloses b.chunks + (tokCount .itemListClose p.2.Items
          + (p.2.Sections.map (fun s => tokCount .itemListClose s.Items)).sum) := by
  unfold handleChapterB
  dsimp only
  have h1 : BInv { b with newSection := true } := h
  have h2 := binv_app_heading { b with newSection := true }
    ("<h2><a id='" ++ anchorName p.2.Title ++ "'></a>" ++ toRoman (p.1 : Int) ++ " - " ++ p.2.Title ++ "</h2>\n") h1
  obtain ⟨g1, g2, g3⟩ := foldl_handleItem_master p.2.Items _ h2
  obtain ⟨k1, k2, k3⟩ := foldl_handleSection_master p.2.Sections _ g1
  refine ⟨k1, ?_, ?_⟩
  · rw [k2, g2, (olcnt_app_heading { b with newSection := true } _ h1.1).1]
    dsimp only
    omega
  · rw [k3, g3, (olcnt_app_heading { b with newSection := true } _ h1.1).2]
    dsimp only
    omega

theorem foldl_handleChapterB_master (ps : List (Nat × Chapter)) :
    ∀ b : BState, BInv b →
      BInv (ps.foldl handleChapterB b) ∧
      olOpens (ps.foldl handleChapterB b).chunks
        = olOpens b.chunks + (ps.map (fun p => tokCount .itemListOpen p.2.Items
            + (p.2.Sections.map (fun s => tokCount .itemListOpen s.Items)).sum)).sum ∧
      olCloses (ps.foldl handleChapterB b).chunks
        = olCloses b.chunks + (ps.map (fun p => tokCount .itemListClose p.2.Items
            + (p.2.Sections.map (fun s => tokCount .itemListClose s.Items)).sum)).sum := by
  induction ps with
  | nil =>
    intro b h
    refine ⟨h, ?_, ?_⟩ <;> simp
  | cons p r ih =>
    intro b h
    obtain ⟨h1, h2, h3⟩ := handleChapterB_master b p h
    obtain ⟨g1, g2, g3⟩ := ih (handleChapterB b p) h1
    refine ⟨g1, ?_, ?_⟩
    · show olOpens (r.foldl handleChapterB (handleChapterB b p)).chunks = _
      rw [g2, h2]
      simp [List.sum_cons]
      omega
    · show olCloses (r.foldl handleChapterB (handleChapterB b p)).chunks = _
      rw [g3, h3]
      simp [List.sum_cons]
      omega

theorem handleAnnexB_master (b : BState) (p : Nat × Section) (h : BInv b) :
    BInv (handleAnnexB b p) ∧
    olOpens (handleAnnexB b p).chunks = olOpens b.chunks + tokCount .itemListOpen p.2.Items ∧
    olCloses (handleAnnexB b p).chunks = olCloses b.chunks + tokCount .itemListClose p.2.Items := by
  unfold handleAnnexB
  dsimp only
  have h1 := binv_app_raw b "<div class='annex'>\n" h
  have h2 := binv_app_heading (appendC b (.raw "<div class='annex'>\n"))
    ("<h2><a name='" ++ annexAnchorName p.2.Title ++ "'></a>Annexe " ++ toAnnex p.1 ++ ": " ++ p.2.Title ++ "</h2>\n") h1
  have h3 : BInv { appendC (appendC b (.raw "<div class='annex'>\n"))
      (.heading ("<h2><a name='" ++ annexAnchorName p.2.Title ++ "'></a>Annexe " ++ toAnnex p.1 ++ ": " ++ p.2.Title ++ "</h2>\n"))
      with newSection := true } := h2
  obtain ⟨g1, g2, g3⟩ := foldl_handleItem_master p.2.Items _ h3
  refine ⟨binv_app_raw _ _ g1, ?_, ?_⟩
  · rw [(olcnt_app_raw _ _ g1.1).1, g2,
      (olcnt_app_heading (appendC b (.raw "<div class='annex'>\n")) _ h1.1).1,
      (olcnt_app_raw b _ h.1).1]
  · rw [(olcnt_app_raw _ _ g1.1).2, g3,
      (olcnt_app_heading (appendC b (.raw "<div class='annex'>\n")) _ h1.1).2,
      (olcnt_app_raw b _ h.1).2]

theorem foldl_handleAnnexB_master (ps : List (Nat × Section)) :
    ∀ b : BState, BInv b →
      BInv (ps.foldl handleAnnexB b) ∧
      olOpens (ps.foldl handleAnnexB b).chunks
        = olOpens b.chunks + (ps.map (fun p => tokCount .itemListOpen p.2.Items)).sum ∧
      olCloses (ps.foldl handleAnnexB b).chunks
        = olCloses b.chunks + (ps.map (fun p => tokCount .itemListClose p.2.Items)).sum := by
  induction ps with
  | nil =>
    intro b h
    refine ⟨h, ?_, ?_⟩ <;> simp
  | cons p r ih =>
    intro b h
    obtain ⟨h1, h2, h3⟩ := handleAnnexB_master b p h
    obtain ⟨g1, g2, g3⟩ := ih (handleAnnexB b p) h1
    refine ⟨g1, ?_, ?_⟩
    · show olOpens (r.foldl handleAnnexB (handleAnnexB b p)).chunks = _
      rw [g2, h2]
      simp [List.sum_cons]
      omega
    · show olCloses (r.foldl handleAnnexB (handleAnnexB b p)).chunks = _
      rw [g3, h3]
      simp [List.sum_cons]
      omega

theorem binv_foldl_raw {α : Type} (F : α → String) (xs : List α) :
    ∀ b : BState, BInv b →
      BInv (xs.foldl (fun b x => appendC b (.raw (F x))) b) ∧
      (xs.foldl (fun b x => appendC b (.raw (F x))) b).paragraphIsOpen = b.paragraphIsOpen := by
  induction xs with
  | nil => intro b h; exact ⟨h, rfl⟩
  | cons x r ih =>
    intro b h
    obtain ⟨g1, g2⟩ := ih (appendC b (.raw (F x))) (binv_app_raw b _ h)
    exact ⟨g1, g2.trans (appendC_paragraphIsOpen b _)⟩

theorem binv_toc_chapters (ps : List (Nat × Chapter)) :
    ∀ b : BState, BInv b → b.paragraphIsOpen = false →
      BInv (ps.foldl (fun b p =>
        appendC (p.2.Sections.foldl (fun b s =>
            appendC b (.raw ("<li><a href='#" ++ anchorName s.Title ++ "'>" ++ s.Title ++ "</a></li>\n")))
          (appendC (appendC b (.raw ("<li><strong>" ++ toRoman (p.1 : Int) ++ "</strong> - <a href='#" ++ anchorName p.2.Title ++ "'>" ++ p.2.Title ++ "</a></li>\n")))
            (.olOpen "<ol class='roman'>\n")))
          (.olClose "</ol>\n")) b) ∧
      (ps.foldl (fun b p =>
        appendC (p.2.Sections.foldl (fun b s =>
            appendC b (.raw ("<li><a href='#" ++ anchorName s.Title ++ "'>" ++ s.Title ++ "</a></li>\n")))
          (appendC (appendC b (.raw ("<li><strong>" ++ toRoman (p.1 : Int) ++ "</strong> - <a href='#" ++ anchorName p.2.Title ++ "'>" ++ p.2.Title ++ "</a></li>\n")))
            (.olOpen "<ol class='roman'>\n")))
          (.olClose "</ol>\n")) b).paragraphIsOpen = false := by
  induction ps with
  | nil => intro b h hf; exact ⟨h, hf⟩
  | cons p r ih =>
    intro b h hf
    have h1 := binv_app_raw b
      ("<li><strong>" ++ toRoman (p.1 : Int) ++ "</strong> - <a href='#" ++ anchorName p.2.Title ++ "'>" ++ p.2.Title ++ "</a></li>\n") h
    have f1 : (appendC b (.raw ("<li><strong>" ++ toRoman (p.1 : Int) ++ "</strong> - <a href='#" ++ anchorName p.2.Title ++ "'>" ++ p.2.Title ++ "</a></li>\n"))).paragraphIsOpen = false :=
      (appendC_paragraphIsOpen _ _).trans hf
    have h2 := binv_app_olOpen _ "<ol class='roman'>\n" h1 f1
    have f2 : (appendC (appendC b (.raw ("<li><strong>" ++ toRoman (p.1 : Int) ++ "</strong> - <a href='#" ++ anchorName p.2.Title ++ "'>" ++ p.2.Title ++ "</a></li>\n"))) (.olOpen "<ol class='roman'>\n")).paragraphIsOpen = false :=
      (appendC_paragraphIsOpen _ _).trans f1
    obtain ⟨h3, f3⟩ := binv_foldl_raw
      (fun (s : Section) => "<li><a href='#" ++ anchorName s.Title ++ "'>" ++ s.Title ++ "</a></li>\n")
      p.2.Sections _ h2
    have h4 := binv_app_olClose _ "</ol>\n" h3
    have f4 : (appendC (p.2.Sections.foldl (fun b s =>
        appendC b (.raw ("<li><a href='#" ++ anchorName s.Title ++ "'>" ++ s.Title ++ "</a></li>\n")))
      (appendC (appendC b (.raw ("<li><strong>" ++ toRoman (p.1 : Int) ++ "</strong> - <a href='#" ++ anchorName p.2.Title ++ "'>" ++ p.2.Title ++ "</a></li>\n")))
        (.olOpen "<ol class='roman'>\n"))) (.olClose "</ol>\n")).paragraphIsOpen = false :=
      (appendC_paragraphIsOpen _ _).trans (f3.trans f2)
    exact ih _ h4 f4

theorem buildTOC_master (document : Document) (b : BState) (h : BInv b)
    (hf : b.paragraphIsOpen = false) :
    BInv (buildTableOfContents b document) ∧
    (buildTableOfContents b document).paragraphIsOpen = false := by
  unfold buildTableOfContents
  dsimp only
  have h1 := binv_app_raw b "<div id='summary'>\n<h3>Table des matières</h3>\n" h
  have f1 : (appendC b (.raw "<div id='summary'>\n<h3>Table des matières</h3>\n")).paragraphIsOpen = false :=
    (appendC_paragraphIsOpen _ _).trans hf
  have h2 := binv_app_olOpen _ "<ol>\n" h1 f1
  have f2 := (appendC_paragraphIsOpen _ (Chunk.olOpen "<ol>\n")).trans f1
  obtain ⟨h3, f3⟩ := binv_foldl_raw
    (fun (s : Section) => "<li><a href='#" ++ anchorName s.Title ++ "'>" ++ s.Title ++ "</a></li>\n")
    document.Sections _ h2
  have f3b := f3.trans f2
  have h4 := binv_app_olClose _ "</ol>\n" h3
  have f4 := (appendC_paragraphIsOpen _ (Chunk.olClose "</ol>\n")).trans f3b
  have h5 := binv_app_olOpen _ "<ol>\n" h4 f4
  have f5 := (appendC_paragraphIsOpen _ (Chunk.olOpen "<ol>\n")).trans f4
  obtain ⟨h6, f6⟩ := binv_toc_chapters document.Chapters.enum _ h5 f5
  have h7 := binv_app_olClose _ "</ol>\n" h6
  have f7 := (appendC_paragraphIsOpen _ (Chunk.olClose "</ol>\n")).trans f6
  have h8 := binv_app_olOpen _ "<ol>\n" h7 f7
  have f8 := (appendC_paragraphIsOpen _ (Chunk.olOpen "<ol>\n")).trans f7
  obtain ⟨h9, f9⟩ := binv_foldl_raw
    (fun (p : Nat × Section) => "<li><strong>Annexe " ++ toAnnex p.1 ++ "</strong>: <a href='#" ++ annexAnchorName p.2.Title ++ "'>" ++ p.2.Title ++ "</a></li>\n")
    document.Annexes.enum _ h8
  have f9b := f9.trans f8
  have h10 := binv_app_olClose _ "</ol>\n" h9
  have f10 := (appendC_paragraphIsOpen _ (Chunk.olClose "</ol>\n")).trans f9b
  exact ⟨binv_app_raw _ "</div>\n" h10, (appendC_paragraphIsOpen _ _).trans f10⟩

theorem binv_bInit (config : BuilderConfig) : BInv (bInit config) := ⟨rfl, rfl, rfl⟩

/-- The whole emitter run keeps the invariant: no write error ever, the
paragraph flag matches the trace, and every list/table opening happens with
the paragraph closed. -/
theorem builderBuild_master (config : BuilderConfig) (document : Document) :
    BInv (builderBuild config document) := by
  unfold builderBuild
  dsimp only
  by_cases ht : config.TableOfContents
  · rw [if_pos ht]
    obtain ⟨h1, _⟩ := buildTOC_master document (bInit config) (binv_bInit config) rfl
    obtain ⟨h2, _, _⟩ := foldl_handleSection_master document.Sections _ h1
    obtain ⟨h3, _, _⟩ := foldl_handleChapterB_master document.Chapters.enum _ h2
    exact (foldl_handleAnnexB_master document.Annexes.enum _ h3).1
  · rw [if_neg ht]
    obtain ⟨h2, _, _⟩ := foldl_handleSection_master document.Sections _ (binv_bInit config)
    obtain ⟨h3, _, _⟩ := foldl_handleChapterB_master document.Chapters.enum _ h2
    exact (foldl_handleAnnexB_master document.Annexes.enum _ h3).1

theorem enum_map_snd_sum {α : Type} (l : List α) (F : α → Nat) :
    (l.enum.map (fun p => F p.2)).sum = (l.map F).sum := by
  rw [show l.enum.map (fun p => F p.2) = (l.enum.map Prod.snd).map F from by
    rw [List.map_map]; rfl, List.enum_map_snd]

/-- With the table of contents disabled, the rendered trace contains exactly
one list-open chunk per ListOpen token and one list-close chunk per ListClose
token of the document. -/
theorem builderBuild_counts (document : Document) :
    olOpens (builderBuild ⟨false⟩ document).chunks = docTokCount .itemListOpen document ∧
    olCloses (builderBuild ⟨false⟩ document).chunks = docTokCount .itemListClose document := by
  unfold builderBuild
  dsimp only
  rw [if_neg (show ¬ (false = true) by decide)]
  obtain ⟨h2, a2, b2⟩ := foldl_handleSection_master document.Sections _ (binv_bInit ⟨false⟩)
  obtain ⟨h3, a3, b3⟩ := foldl_handleChapterB_master document.Chapters.enum _ h2
  obtain ⟨h4, a4, b4⟩ := foldl_handleAnnexB_master document.Annexes.enum _ h3
  constructor
  · rw [a4, a3, a2]
    rw [enum_map_snd_sum document.Chapters
        (fun c => tokCount .itemListOpen c.Items + (c.Sections.map (fun s => tokCount .itemListOpen s.Items)).sum),
      enum_map_snd_sum document.Annexes (fun a => tokCount .itemListOpen a.Items)]
    simp [docTokCount, bInit, olOpens]
  · rw [b4, b3, b2]
    rw [enum_map_snd_sum document.Chapters
        (fun c => tokCount .itemListClose c.Items + (c.Sections.map (fun s => tokCount .itemListClose s.Items)).sum),
      enum_map_snd_sum document.Annexes (fun a => tokCount .itemListClose a.Items)]
    simp [docTokCount, bInit, olCloses]

/-- C5 counterexample: the claim as stated is false on two counts.  On
`"##A\nx##B\ny\n"` the second `<h3>` heading is emitted while the paragraph
opened for `x` is still open (the heading emitters never close paragraphs),
and on `"##A\nx"` the paragraph opened for `x` is still open when rendering
finishes — no `</p>` is emitted before the end of the output. -/
theorem c5_counterexample :
    paraOkFull false (pipelineChunks 48 "##A\nx##B\ny\n" ⟨false⟩) = false ∧
    paraSt false (pipelineChunks 32 "##A\nx" ⟨false⟩) = true := by
  decide

/-- C5 amended: in every rendered trace, each list-open and table-open
emission happens with the paragraph closed (TableStart and ListOpen close any
open paragraph first); headings do NOT close an open paragraph, and a
paragraph still open when rendering finishes is left unclosed. -/
theorem c5_amended (config : BuilderConfig) (document : Document) :
    paraOkTL false (builderBuild config document).chunks = true :=
  (builderBuild_master config document).2.2

/-- C6 counterexample: on `"#C\n- abc"` the input ends inside a list item, so
the lexer emits ListOpen without a matching ListClose and the rendered output
contains one list-open emission and zero list-close emissions. -/
theorem c6_counterexample :
    olOpens (pipelineChunks 32 "#C\n- abc" ⟨false⟩) = 1 ∧
    olCloses (pipelineChunks 32 "#C\n- abc" ⟨false⟩) = 0 := by
  decide

/-- C6 amended: each ListOpen token emits exactly one list-open and each
ListClose token exactly one list-close (with the table of contents disabled),
so the emission counts equal the token counts; they differ exactly when the
token stream is unbalanced, which the lexer produces whenever the input ends
inside a list item. -/
theorem c6_amended (document : Document) :
    olOpens (builderBuild ⟨false⟩ document).chunks = docTokCount .itemListOpen document ∧
    olCloses (builderBuild ⟨false⟩ document).chunks = docTokCount .itemListClose document :=
  builderBuild_counts document

theorem lexRun_doneSt (n : Nat) (l : LexSt) : lexRun n .doneSt l = [] := by
  induction n with
  | zero => rfl
  | succ n ih => simp [lexRun, step, ih]

theorem getD_mem (xs : List Char) : ∀ (i : Nat) (d : Char), i < xs.length → xs.getD i d ∈ xs := by
  induction xs with
  | nil => intro i d h; simp at h
  | cons a r ih =>
    intro i d h
    cases i with
    | zero => simp [List.getD_cons_zero]
    | succ i =>
      rw [List.getD_cons_succ]
      exact List.mem_cons_of_mem a (ih i d (by simpa using h))

theorem leadsWith_mem_head (c : Char) (pt s : List Char) (p : Nat)
    (h : leadsWith (c :: pt) (s.drop p) = true) : c ∈ s := by
  cases hd : s.drop p with
  | nil => rw [hd] at h; simp [leadsWith] at h
  | cons a r =>
    rw [hd] at h
    have hca : c = a := by
      have := h
      simp [leadsWith] at this
      exact this.1
    have ha : a ∈ s := List.drop_subset p s (by rw [hd]; exact List.mem_cons_self a r)
    rw [hca]
    exact ha

theorem hasSub_drop (pat : List Char) : ∀ (s : List Char), hasSub pat s = false →
    ∀ p, leadsWith pat (s.drop p) = false := by
  intro s
  induction s with
  | nil => intro h p; rw [List.drop_nil]; simpa [hasSub] using h
  | cons c r ih =>
    intro h p
    have h2 : leadsWith pat (c :: r) = false ∧ hasSub pat r = false := by
      simpa [hasSub] using h
    cases p with
    | zero => simpa using h2.1
    | succ p => rw [List.drop_succ_cons]; exact ih h2.2 p

theorem triggerFree_parts (s : List Char) (h : triggerFree s = true) :
    (∀ c ∈ s, c ≠ '\n' ∧ c ≠ '#' ∧ c ≠ '*' ∧ c ≠ '[' ∧ c ≠ '\\') ∧
    hasSub annexMark s = false ∧ hasSub tableMark s = false ∧ hasSub emSymbolMark s = false := by
  have h2 : (s.all (fun c => !(trigChars.contains c)) = true) ∧
      hasSub annexMark s = false ∧ hasSub tableMark s = false ∧ hasSub emSymbolMark s = false := by
    unfold triggerFree at h
    rw [Bool.and_eq_true, Bool.and_eq_true, Bool.and_eq_true] at h
    exact ⟨h.1.1.1, by simpa using h.1.1.2, by simpa using h.1.2, by simpa using h.2⟩
  refine ⟨?_, h2.2⟩
  intro c hc
  have := List.all_eq_true.mp h2.1 c hc
  simpa [trigChars] using this

theorem stepText_triggerFree (l : LexSt) (h : triggerFree l.input = true) :
    ((step .textSt l).1.all (fun it => it.typ = .itemText || it.typ = .itemEOF) = true) ∧
    ((step .textSt l).2.1 = .textSt ∨ (step .textSt l).2.1 = .doneSt) ∧
    (step .textSt l).2.2.input = l.input := by
  obtain ⟨hchars, hannex, htable, hem⟩ := triggerFree_parts l.input h
  have hsec : atPos l sectionMark = false := by
    cases hb : atPos l sectionMark
    · rfl
    · exact absurd rfl ((hchars '#' (leadsWith_mem_head '#' ['#'] l.input l.pos hb)).2.1)
  have hchap : atPos l chapterMark = false := by
    cases hb : atPos l chapterMark
    · rfl
    · exact absurd rfl ((hchars '#' (leadsWith_mem_head '#' [] l.input l.pos hb)).2.1)
  have hlist : atPos l listElementMark = false := by
    cases hb : atPos l listElementMark
    · rfl
    · exact absurd rfl ((hchars '\n' (leadsWith_mem_head '\n' ['-', ' '] l.input l.pos hb)).1)
  have hnl : atPos l newLineMark = false := by
    cases hb : atPos l newLineMark
    · rfl
    · exact absurd rfl ((hchars '\n' (leadsWith_mem_head '\n' [] l.input l.pos hb)).1)
  have htab : atPos l tableMark = false := hasSub_drop tableMark l.input htable l.pos
  have hann : atPos l annexMark = false := hasSub_drop annexMark l.input hannex l.pos
  have hemk : atPos l emSymbolMark = false := hasSub_drop emSymbolMark l.input hem l.pos
  simp only [step, hsec, htab, hann, hchap, hlist, hnl, hemk, Bool.false_eq_true, if_false]
  by_cases hlen : l.input.length ≤ l.pos
  · have hl : lnext l = (eofCh, { l with width := 0 }) := by simp [lnext, hlen]
    rw [hl]
    dsimp only
    have d1 : ¬ (eofCh = '\\') := by decide
    have d2 : ¬ (eofCh = '*') := by decide
    have d3 : ¬ (eofCh = '[') := by decide
    rw [if_neg d1, if_neg d2, if_neg d3, if_pos (rfl : eofCh = eofCh)]
    by_cases hsp : l.start < l.pos
    · rw [if_pos hsp]
      exact ⟨by simp [emitTrimI, emitI], Or.inr rfl, rfl⟩
    · rw [if_neg hsp]
      exact ⟨by simp [emitI], Or.inr rfl, rfl⟩
  · have hl : lnext l = (l.input.getD l.pos eofCh,
        { l with pos := l.pos + 1, width := 1,
                 line := if l.input.getD l.pos eofCh = '\n' then l.line + 1 else l.line }) := by
      simp [lnext, hlen]
    rw [hl]
    dsimp only
    have hcm := getD_mem l.input l.pos eofCh (Nat.lt_of_not_le hlen)
    have hcf := hchars _ hcm
    rw [if_neg hcf.2.2.2.2, if_neg hcf.2.2.1, if_neg hcf.2.2.2.1]
    by_cases hce : l.input.getD l.pos eofCh = eofCh
    · rw [if_pos hce]
      by_cases hsp : l.start < l.pos + 1
      · rw [if_pos hsp]
        exact ⟨by simp [emitTrimI, emitI], Or.inr rfl, rfl⟩
      · rw [if_neg hsp]
        exact ⟨by simp [emitI], Or.inr rfl, rfl⟩
    · rw [if_neg hce]
      exact ⟨rfl, Or.inl rfl, rfl⟩

theorem lexRun_textSt_types (n : Nat) : ∀ (l : LexSt), triggerFree l.input = true →
    ∀ it ∈ lexRun n .textSt l, it.typ = .itemText ∨ it.typ = .itemEOF := by
  induction n with
  | zero => intro l _ it hit; simp [lexRun] at hit
  | succ n ih =>
    intro l h it hit
    obtain ⟨ha, hst, hin⟩ := stepText_triggerFree l h
    have hit2 : it ∈ (step .textSt l).1 ++ lexRun n (step .textSt l).2.1 (step .textSt l).2.2 := by
      simpa [lexRun] using hit
    rcases List.mem_append.mp hit2 with h1 | h1
    · have := List.all_eq_true.mp ha it h1
      simpa using this
    · rcases hst with he | he
      · rw [he] at h1
        exact ih _ (by rw [hin]; exact h) it h1
      · rw [he, lexRun_doneSt] at h1
        simp at h1

theorem asmRun_textOnly (items : List Item) :
    ∀ st : AsmSt, (∀ it ∈ items, it.typ = .itemText ∨ it.typ = .itemEOF) → st.itTgt = .doc →
      (asmRun items st).1.doc.Sections = st.doc.Sections ∧
      (asmRun items st).1.doc.Chapters = st.doc.Chapters ∧
      (asmRun items st).1.doc.Annexes = st.doc.Annexes := by
  induction items with
  | nil => intro st _ _; exact ⟨rfl, rfl, rfl⟩
  | cons it r ih =>
    intro st h htgt
    rcases h it (by simp) with hty | hty
    · have h1 : ¬ (it.typ = .itemEOF) := by simp [hty]
      have h2 : ¬ (it.typ = .itemError) := by simp [hty]
      simp only [asmRun, if_neg h1, if_neg h2]
      have hstep : asmStep st it = { st with doc := pushItem it st.doc st.itTgt } :=
        asmStep_default st it (by simp [hty]) (by simp [hty]) (by simp [hty])
      rw [hstep, htgt]
      have := ih { doc := pushItem it st.doc .doc, secTgt := st.secTgt, itTgt := .doc }
        (fun x hx => h x (by simp [hx])) rfl
      simpa [pushItem] using this
    · simp [asmRun, hty]

theorem builderBuild_emptyDoc (d : Document) (h1 : d.Sections = []) (h2 : d.Chapters = [])
    (h3 : d.Annexes = []) : builderBuild ⟨false⟩ d = bInit ⟨false⟩ := by
  unfold builderBuild
  dsimp only
  rw [if_neg (show ¬ (false = true) by decide), h1, h2, h3]
  rfl

theorem mem_escapePercent (c : Char) : ∀ s : List Char, c ∈ escapePercent s → c ∈ s ∨ c = '%' := by
  intro s
  induction s with
  | nil => intro h; simp [escapePercent] at h
  | cons a r ih =>
    intro h
    by_cases ha : a = '%'
    · subst ha
      rw [show escapePercent ('%' :: r) = '%' :: '%' :: escapePercent r from by
        simp [escapePercent]] at h
      rcases List.mem_cons.mp h with h | h
      · exact Or.inr h
      · rcases List.mem_cons.mp h with h | h
        · exact Or.inr h
        · rcases ih h with h2 | h2
          · exact Or.inl (List.mem_cons_of_mem _ h2)
          · exact Or.inr h2
    · rw [show escapePercent (a :: r) = a :: escapePercent r from by
        simp [escapePercent, ha]] at h
      rcases List.mem_cons.mp h with h | h
      · exact Or.inl (h ▸ List.mem_cons_self a r)
      · rcases ih h with h2 | h2
        · exact Or.inl (List.mem_cons_of_mem a h2)
        · exact Or.inr h2

theorem leadsWith_escapePercent : ∀ (r : List Char) (pt : List Char), '%' ∉ pt →
    leadsWith pt (escapePercent r) = leadsWith pt r := by
  intro r
  induction r with
  | nil => intro pt hp; rfl
  | cons a r ih =>
    intro pt hp
    by_cases ha : a = '%'
    · subst ha
      cases pt with
      | nil => rfl
      | cons c pt2 =>
        have hc : ¬ (c = '%') := fun hh => hp (hh ▸ List.mem_cons_self c pt2)
        simp [escapePercent, leadsWith, hc]
    · cases pt with
      | nil => rfl
      | cons c pt2 =>
        rw [show escapePercent (a :: r) = a :: escapePercent r from by simp [escapePercent, ha]]
        show (decide (c = a) && leadsWith pt2 (escapePercent r))
          = (decide (c = a) && leadsWith pt2 r)
        rw [ih pt2 (fun hm => hp (List.mem_cons_of_mem c hm))]

theorem hasSub_escapePercent (c0 : Char) (pt0 : List Char) (hp : '%' ∉ c0 :: pt0)
    (hc0 : c0 ≠ '%') :
    ∀ s : List Char, hasSub (c0 :: pt0) s = false → hasSub (c0 :: pt0) (escapePercent s) = false := by
  intro s
  induction s with
  | nil => intro h; exact h
  | cons a r ih =>
    intro h
    have h2 : leadsWith (c0 :: pt0) (a :: r) = false ∧ hasSub (c0 :: pt0) r = false := by
      simpa [hasSub] using h
    by_cases ha : a = '%'
    · subst ha
      rw [show escapePercent ('%' :: r) = '%' :: '%' :: escapePercent r from by simp [escapePercent]]
      have hrec : hasSub (c0 :: pt0) (escapePercent r) = false := ih h2.2
      have hw1 : leadsWith (c0 :: pt0) ('%' :: '%' :: escapePercent r) = false := by
        simp [leadsWith, hc0]
      have hw2 : leadsWith (c0 :: pt0) ('%' :: escapePercent r) = false := by
        simp [leadsWith, hc0]
      show (leadsWith (c0 :: pt0) ('%' :: '%' :: escapePercent r)
        || (leadsWith (c0 :: pt0) ('%' :: escapePercent r)
          || hasSub (c0 :: pt0) (escapePercent r))) = false
      rw [hw1, hw2, hrec]
      rfl
    · rw [show escapePercent (a :: r) = a :: escapePercent r from by simp [escapePercent, ha]]
      have hrec : hasSub (c0 :: pt0) (escapePercent r) = false := ih h2.2
      have hlead : leadsWith (c0 :: pt0) (a :: escapePercent r) = false := by
        by_cases hca : c0 = a
        · have hpt : '%' ∉ pt0 := fun hm => hp (List.mem_cons_of_mem c0 hm)
          show (decide (c0 = a) && leadsWith pt0 (escapePercent r)) = false
          rw [leadsWith_escapePercent r pt0 hpt]
          exact h2.1
        · simp [leadsWith, hca]
      show (leadsWith (c0 :: pt0) (a :: escapePercent r)
        || hasSub (c0 :: pt0) (escapePercent r)) = false
      rw [hlead, hrec]
      rfl

theorem triggerFree_escapePercent (s : List Char) (h : triggerFree s = true) :
    triggerFree (escapePercent s) = true := by
  have h2 : (s.all (fun c => !(trigChars.contains c)) = true) ∧
      hasSub annexMark s = false ∧ hasSub tableMark s = false ∧ hasSub emSymbolMark s = false := by
    unfold triggerFree at h
    rw [Bool.and_eq_true, Bool.and_eq_true, Bool.and_eq_true] at h
    exact ⟨h.1.1.1, by simpa using h.1.1.2, by simpa using h.1.2, by simpa using h.2⟩
  have hchars : (escapePercent s).all (fun c => !(trigChars.contains c)) = true := by
    rw [List.all_eq_true]
    intro c hc
    rcases mem_escapePercent c s hc with hm | hm
    · exact List.all_eq_true.mp h2.1 c hm
    · rw [hm]; decide
  have ha : hasSub annexMark (escapePercent s) = false :=
    hasSub_escapePercent 'A' "NNEX".data (by decide) (by decide) s h2.2.1
  have ht : hasSub tableMark (escapePercent s) = false :=
    hasSub_escapePercent '-' "table-".data (by decide) (by decide) s h2.2.2.1
  have he : hasSub emSymbolMark (escapePercent s) = false :=
    hasSub_escapePercent '_' "_".data (by decide) (by decide) s h2.2.2.2
  unfold triggerFree
  rw [Bool.and_eq_true, Bool.and_eq_true, Bool.and_eq_true]
  exact ⟨⟨⟨hchars, by simp [ha]⟩, by simp [ht]⟩, by simp [he]⟩

/-- C1 counterexample: the claim fails.  On the trigger-free input `"hello"`
the pipeline (table of contents disabled) emits nothing at all — not one
paragraph: all content lands in `document.Items`, which `Builder.Build` never
visits. -/
theorem c1_counterexample :
    pipelineChunks 16 "hello" ⟨false⟩ = [] ∧ pipelineStr 16 "hello" ⟨false⟩ = "" := by
  decide

/-- C1 amended: for every input containing none of the grammar's trigger
sequences, running the pipeline with the table of contents disabled produces
EMPTY output (for any amount of lexer fuel): the lexer emits only Text and
EndOfInput items, the assembler files them under the document's top-level
items, and the emitter never walks `document.Items`. -/
theorem c1_amended (input : String) (fuel : Nat) (h : triggerFree input.data = true) :
    pipelineStr fuel input ⟨false⟩ = "" := by
  have hesc := triggerFree_escapePercent input.data h
  have htys := lexRun_textSt_types fuel (lexInit (escapePercent input.data)) hesc
  have hasm := asmRun_textOnly (lexItems fuel (escapePercent input.data)) asmInit htys rfl
  have hb := builderBuild_emptyDoc (assembleDoc (lexItems fuel (escapePercent input.data)))
    hasm.1 hasm.2.1 hasm.2.2
  unfold pipelineStr pipelineChunks
  rw [hb]
  rfl

/-- C1 witness: the amended claim at the concrete trigger-free input
`"hello"`. -/
theorem c1_witness :
    triggerFree "hello".data = true ∧ pipelineStr 16 "hello" ⟨false⟩ = "" :=
  ⟨by decide, c1_amended "hello" 16 (by decide)⟩

end Rulebook
